import Mathlib

/-!
# Verification of the keyed heap / blocking queue / delaying queue library

Shallow embedding of the Go repository `LiuYuuChen/Algorithms`:

* `heap/heap.go`      — keyed addressable binary heap (`data`, `Heap`)
* `heap/concurrent.go`— concurrent variant (`concurrentData`, `currentHeap`);
  locking is erased (we model the sequential semantics under the lock)
* the generic heap algorithms (`Push`, `Pop`, `Remove`, `Fix`,
  `heapifyUp`, `heapifyDown`) from the `heap` package
* `queue/block_queue.go`    — blocking queue (`blockQueue`)
* `queue/delaying_queue.go` — delaying queue (`delayingQueue`)

Go maps are modelled as association lists with unique keys, Go slices as
`List`, `time.Time` as `Int` (nanoseconds), and errors as `Except String`.
Where the Go code would panic (index out of range, nil-map dereference) the
model returns a distinguishable junk value marked `panic:`; the safety
theorems show these branches are unreachable from the public operations.
-/

set_option maxHeartbeats 1000000

namespace Algo

/-! ## Association-list model of Go maps -/

/-- Lookup in a Go map (`m[k]`, with the `ok` flag encoded as `Option`). -/
def mapGet {K A : Type} [DecidableEq K] : List (K × A) → K → Option A
  | [], _ => none
  | (k0, a0) :: t, k => if k0 = k then some a0 else mapGet t k

/-- Go map assignment `m[k] = a`: replace the binding if present, else add. -/
def mapSet {K A : Type} [DecidableEq K] : List (K × A) → K → A → List (K × A)
  | [], k, a => [(k, a)]
  | (k0, a0) :: t, k, a => if k0 = k then (k, a) :: t else (k0, a0) :: mapSet t k a

/-- Go `delete(m, k)`: remove the binding for `k` if present. -/
def mapDel {K A : Type} [DecidableEq K] : List (K × A) → K → List (K × A)
  | [], _ => []
  | (k0, a0) :: t, k => if k0 = k then t else (k0, a0) :: mapDel t k

/-- The keys of an association list. -/
def mapKeys {K A : Type} (m : List (K × A)) : List K := m.map Prod.fst

theorem mapKeys_cons {K A : Type} (k0 : K) (a0 : A) (t : List (K × A)) :
    mapKeys ((k0, a0) :: t) = k0 :: mapKeys t := rfl

theorem mapGet_mapSet_self {K A : Type} [DecidableEq K] (m : List (K × A)) (k : K) (a : A) :
    mapGet (mapSet m k a) k = some a := by
  induction m with
  | nil => simp [mapGet, mapSet]
  | cons h t ih =>
    obtain ⟨k0, a0⟩ := h
    by_cases hk : k0 = k <;> simp [mapGet, mapSet, hk, ih]

theorem mapGet_mapSet_ne {K A : Type} [DecidableEq K] (m : List (K × A)) (k k' : K) (a : A)
    (h : k' ≠ k) : mapGet (mapSet m k a) k' = mapGet m k' := by
  have h2 : k ≠ k' := Ne.symm h
  induction m with
  | nil => simp [mapGet, mapSet, h2]
  | cons hd t ih =>
    obtain ⟨k0, a0⟩ := hd
    by_cases hk : k0 = k
    · subst hk
      simp [mapGet, mapSet, h2]
    · by_cases hk' : k0 = k' <;> simp [mapGet, mapSet, hk, hk', ih, h, h2]

theorem mapGet_mapDel_ne {K A : Type} [DecidableEq K] (m : List (K × A)) (k k' : K)
    (h : k' ≠ k) : mapGet (mapDel m k) k' = mapGet m k' := by
  have h2 : k ≠ k' := Ne.symm h
  induction m with
  | nil => simp [mapDel]
  | cons hd t ih =>
    obtain ⟨k0, a0⟩ := hd
    by_cases hk : k0 = k
    · subst hk
      simp [mapGet, mapDel, h2]
    · by_cases hk' : k0 = k' <;> simp [mapGet, mapDel, hk, hk', ih, h, h2]

theorem mapDel_sublist {K A : Type} [DecidableEq K] (m : List (K × A)) (k : K) :
    (mapDel m k).Sublist m := by
  induction m with
  | nil => simp [mapDel]
  | cons hd t ih =>
    obtain ⟨k0, a0⟩ := hd
    by_cases hk : k0 = k
    · simp only [mapDel, hk, if_pos rfl]
      exact List.sublist_cons_self _ _
    · simpa [mapDel, hk] using ih.cons₂ (k0, a0)

theorem mapGet_none_of_not_mem_keys {K A : Type} [DecidableEq K] (m : List (K × A)) (k : K)
    (h : k ∉ mapKeys m) : mapGet m k = none := by
  induction m with
  | nil => simp [mapGet]
  | cons hd t ih =>
    obtain ⟨k0, a0⟩ := hd
    simp only [mapKeys_cons, List.mem_cons, not_or] at h
    simp only [mapGet, if_neg (Ne.symm h.1)]
    exact ih h.2

theorem mem_keys_of_mapGet_some {K A : Type} [DecidableEq K] {m : List (K × A)} {k : K} {a : A}
    (h : mapGet m k = some a) : k ∈ mapKeys m := by
  by_contra hmem
  rw [mapGet_none_of_not_mem_keys m k hmem] at h
  exact Option.noConfusion h

theorem mapGet_isSome_of_mem_keys {K A : Type} [DecidableEq K] {m : List (K × A)} {k : K}
    (h : k ∈ mapKeys m) : ∃ a, mapGet m k = some a := by
  induction m with
  | nil => simp [mapKeys] at h
  | cons hd t ih =>
    obtain ⟨k0, a0⟩ := hd
    by_cases hk : k0 = k
    · exact ⟨a0, by simp [mapGet, hk]⟩
    · rw [mapKeys_cons, List.mem_cons] at h
      rcases h with h | h
      · exact absurd h.symm hk
      · obtain ⟨a, ha⟩ := ih h
        exact ⟨a, by simp [mapGet, hk, ha]⟩

theorem mapGet_mapDel_self {K A : Type} [DecidableEq K] (m : List (K × A)) (k : K)
    (hnd : (mapKeys m).Nodup) : mapGet (mapDel m k) k = none := by
  induction m with
  | nil => simp [mapDel, mapGet]
  | cons hd t ih =>
    obtain ⟨k0, a0⟩ := hd
    rw [mapKeys_cons, List.nodup_cons] at hnd
    by_cases hk : k0 = k
    · subst hk
      simp only [mapDel, if_pos rfl]
      exact mapGet_none_of_not_mem_keys t k0 hnd.1
    · simp only [mapDel, if_neg hk, mapGet, if_neg hk]
      exact ih hnd.2

theorem mapKeys_mapSet_mem {K A : Type} [DecidableEq K] (m : List (K × A)) (k : K) (a : A)
    (h : k ∈ mapKeys m) : mapKeys (mapSet m k a) = mapKeys m := by
  induction m with
  | nil => simp [mapKeys] at h
  | cons hd t ih =>
    obtain ⟨k0, a0⟩ := hd
    by_cases hk : k0 = k
    · simp [mapSet, mapKeys_cons, hk]
    · rw [mapKeys_cons, List.mem_cons] at h
      rcases h with h | h
      · exact absurd h.symm hk
      · simp only [mapSet, if_neg hk, mapKeys_cons, ih h]

theorem mapKeys_mapSet_not_mem {K A : Type} [DecidableEq K] (m : List (K × A)) (k : K) (a : A)
    (h : k ∉ mapKeys m) : mapKeys (mapSet m k a) = mapKeys m ++ [k] := by
  induction m with
  | nil => simp [mapSet, mapKeys]
  | cons hd t ih =>
    obtain ⟨k0, a0⟩ := hd
    rw [mapKeys_cons, List.mem_cons, not_or] at h
    have hk : k0 ≠ k := Ne.symm h.1
    simp only [mapSet, if_neg hk, mapKeys_cons, ih h.2, List.cons_append]

theorem mapKeys_nodup_mapSet {K A : Type} [DecidableEq K] (m : List (K × A)) (k : K) (a : A)
    (h : (mapKeys m).Nodup) : (mapKeys (mapSet m k a)).Nodup := by
  by_cases hmem : k ∈ mapKeys m
  · rw [mapKeys_mapSet_mem m k a hmem]; exact h
  · rw [mapKeys_mapSet_not_mem m k a hmem]
    simpa [List.nodup_append] using ⟨h, hmem⟩

theorem mapKeys_nodup_mapDel {K A : Type} [DecidableEq K] (m : List (K × A)) (k : K)
    (h : (mapKeys m).Nodup) : (mapKeys (mapDel m k)).Nodup :=
  ((mapDel_sublist m k).map Prod.fst).nodup h

/-- Setting a binding to the value it already has is a no-op. -/
theorem mapSet_self {K A : Type} [DecidableEq K] (m : List (K × A)) (k : K) (a : A)
    (h : mapGet m k = some a) : mapSet m k a = m := by
  induction m with
  | nil => simp [mapGet] at h
  | cons hd t ih =>
    obtain ⟨k0, a0⟩ := hd
    by_cases hk : k0 = k
    · subst hk
      rw [mapGet, if_pos rfl, Option.some.injEq] at h
      rw [mapSet, if_pos rfl, h]
    · rw [mapGet, if_neg hk] at h
      rw [mapSet, if_neg hk, ih h]

/-! ## The heap data layer (`heap/heap.go` and `heap/concurrent.go`)

`heapItem` and the `data` / `concurrentData` structures.  The Go `data` struct
carries its `priority PriorityHandler`; in the embedding the handler's two
functions `formKey` (`FormStoreKey`) and `less` (`Less`) are explicit
parameters instead of stored fields. -/

structure heapItem (V : Type) where
  index : Nat
  value : V
  deriving Repr, DecidableEq

/-- The shared state of `data[KEY, VALUE]` and `concurrentData[VALUE]`:
a key-addressed item table plus the heap-ordered key array. -/
structure HeapData (K V : Type) where
  items : List (K × heapItem V)
  queue : List K
  deriving Repr, DecidableEq

variable {K V : Type} [DecidableEq K]

/-- `data.Less` (heap/heap.go).  The bounds guard uses `<` (not `≤`), so
`i = len(queue)` slips past the guard; in Go that indexes out of range
(a panic), modelled as `false` and shown unreachable from the operations. -/
def dataLess (less : V → V → Bool) (d : HeapData K V) (i j : Nat) : Bool :=
  if d.queue.length < i ∨ d.queue.length < j then false
  else
    match d.queue[i]?, d.queue[j]? with
    | some ki, some kj =>
      match mapGet d.items ki, mapGet d.items kj with
      | some itI, some itJ => less itI.value itJ.value
      | _, _ => false -- Go: nil-map dereference panic; unreachable under WFb
    | _, _ => false   -- Go: index out of range panic; unreachable from the operations

/-- The `item := h.items[queue[p]]; item.index = p` pattern of `Swap`: point
the stored item for key `k` at position `p`.  When the key is missing Go
dereferences a nil pointer; the model leaves the table unchanged (unreachable
under `WFb`). -/
def setIndex (m : List (K × heapItem V)) (k : K) (p : Nat) : List (K × heapItem V) :=
  match mapGet m k with
  | some it => mapSet m k ⟨p, it.value⟩
  | none => m

/-- `data.Swap` (heap/heap.go): swap the two queue slots, then point the two
items' `index` fields at their new positions (the source reads the keys from
the already-swapped queue: `queue[i]` is the old `queue[j]` and vice versa).
Out-of-range indices panic in Go; the algorithms only call `Swap` in bounds. -/
def dataSwap (d : HeapData K V) (i j : Nat) : HeapData K V :=
  match d.queue[i]?, d.queue[j]? with
  | some ki, some kj =>
    { items := setIndex (setIndex d.items kj i) ki j
      queue := (d.queue.set i kj).set j ki }
  | _, _ => d

/-- `data.Pop` (heap/heap.go): reads `queue[len-1]` with no length check — on
an empty queue Go panics (modelled by the `panic:` error, shown unreachable:
the generic `Pop`/`Remove` check the length first).  The queue is shrunk
before the `ok` check, exactly as in the source. -/
def dataPop (d : HeapData K V) : Except String V × HeapData K V :=
  match d.queue[d.queue.length - 1]? with
  | none => (.error "panic: index out of range", d)
  | some key =>
    let q := d.queue.take (d.queue.length - 1)
    match mapGet d.items key with
    | none => (.error "pop a empty heap", { items := d.items, queue := q })
    | some item => (.ok item.value, { items := mapDel d.items key, queue := q })

/-- `data.Push` (heap/heap.go). -/
def dataPush (formKey : V → K) (d : HeapData K V) (value : V) : HeapData K V :=
  let n := d.queue.length
  let key := formKey value
  { items := mapSet d.items key ⟨n, value⟩, queue := d.queue ++ [key] }

/-- `data.Peek` (heap/heap.go): `items[queue[0]]` dereferences nil when the
root key is missing from the table (unreachable under `WFb`). -/
def dataPeek (d : HeapData K V) : Except String V :=
  match d.queue[0]? with
  | some k =>
    match mapGet d.items k with
    | some it => .ok it.value
    | none => .error "panic: nil pointer dereference"
  | none => .error "peek a empty heap"

/-- `concurrentData.Less` (heap/concurrent.go): same as `data.Less` but with
the correct `≤` bounds guard and explicit `ok` checks on the table lookups. -/
def cLess (less : V → V → Bool) (d : HeapData K V) (i j : Nat) : Bool :=
  if d.queue.length ≤ i ∨ d.queue.length ≤ j then false
  else
    match d.queue[i]?, d.queue[j]? with
    | some ki, some kj =>
      match mapGet d.items ki, mapGet d.items kj with
      | some itI, some itJ => less itI.value itJ.value
      | _, _ => false
    | _, _ => false

/-- `concurrentData.Swap` (heap/concurrent.go): guarded no-op when out of
range, otherwise identical to `data.Swap`. -/
def cSwap (d : HeapData K V) (i j : Nat) : HeapData K V :=
  if d.queue.length ≤ i ∨ d.queue.length ≤ j then d
  else
    match d.queue[i]?, d.queue[j]? with
    | some ki, some kj =>
      { items := setIndex (setIndex d.items kj i) ki j
        queue := (d.queue.set i kj).set j ki }
    | _, _ => d

/-- `concurrentData.Pop` (heap/concurrent.go): length-checked version of
`data.Pop`. -/
def cPop (d : HeapData K V) : Except String V × HeapData K V :=
  if d.queue.length = 0 then (.error "pop a empty heap", d)
  else
    match d.queue[d.queue.length - 1]? with
    | none => (.error "panic: index out of range", d) -- unreachable: length ≠ 0
    | some key =>
      let q := d.queue.take (d.queue.length - 1)
      match mapGet d.items key with
      | none => (.error "pop a empty heap", { items := d.items, queue := q })
      | some item => (.ok item.value, { items := mapDel d.items key, queue := q })

/-- `concurrentData.Push` (heap/concurrent.go): identical to `data.Push`. -/
def cPush (formKey : V → K) (d : HeapData K V) (value : V) : HeapData K V :=
  let n := d.queue.length
  let key := formKey value
  { items := mapSet d.items key ⟨n, value⟩, queue := d.queue ++ [key] }

/-- `concurrentData.Peek` (heap/concurrent.go). -/
def cPeek (d : HeapData K V) : Except String V :=
  match d.queue[0]? with
  | some k =>
    match mapGet d.items k with
    | some it => .ok it.value
    | none => .error "can not find queue peek"
  | none => .error "peek a empty heap"

/-! ## The generic heap algorithms (`heap` package: `Push`, `Pop`, `Remove`,
`Fix`, `heapifyUp`, `heapifyDown`)

In Go these are generic over `heap.Interface`; the two implementations the
repository instantiates them with are `data` and `concurrentData`, both
modelled on the `HeapData` state, so the interface is a record of the five
methods over that state. -/

structure HeapIntf (K V : Type) where
  Len : HeapData K V → Nat
  Less : HeapData K V → Nat → Nat → Bool
  Swap : HeapData K V → Nat → Nat → HeapData K V
  Push : HeapData K V → V → HeapData K V
  Pop : HeapData K V → Except String V × HeapData K V

/-- The loop body of `heapifyUp`: `parent := (i-1)/2` (Go integer division of
`-1/2` is `0`, matching `Nat` subtraction at `i = 0`); stop when `parent == i`
or `!Less(i, parent)`, else swap and continue from `parent`. -/
def heapifyUpLoop (h : HeapIntf K V) (d : HeapData K V) (i : Nat) : HeapData K V :=
  if (i - 1) / 2 = i ∨ h.Less d i ((i - 1) / 2) = false then d
  else heapifyUpLoop h (h.Swap d ((i - 1) / 2) i) ((i - 1) / 2)
termination_by i
decreasing_by omega

def heapifyUp (h : HeapIntf K V) (d : HeapData K V) (i : Nat) : HeapData K V :=
  heapifyUpLoop h d i

/-- The `minimum` selection in `heapifyDown`'s loop: the right child
`2*i+2 = left+1` when it exists and is `Less` than the left child `2*i+1`,
else the left child (short-circuit order as in the source). -/
def downMin (h : HeapIntf K V) (d : HeapData K V) (i n : Nat) : Nat :=
  if 2 * i + 1 + 1 < n ∧ h.Less d (2 * i + 1 + 1) (2 * i + 1) = true then 2 * i + 1 + 1
  else 2 * i + 1

/-- The loop of `heapifyDown`, returning the final index `i` (the source
tracks it to return `i > i0`).  The Go `left < 0` overflow check cannot fire
for `Nat` indices. -/
def heapifyDownLoop (h : HeapIntf K V) (d : HeapData K V) (i n : Nat) :
    HeapData K V × Nat :=
  if n ≤ 2 * i + 1 then (d, i)
  else if h.Less d (downMin h d i n) i = false then (d, i)
  else heapifyDownLoop h (h.Swap d i (downMin h d i n)) (downMin h d i n) n
termination_by n - i
decreasing_by
  rename_i hleft _
  unfold downMin
  split <;> omega

/-- `heapifyDown` returns whether the entry moved (`i > i0`). -/
def heapifyDown (h : HeapIntf K V) (d : HeapData K V) (i0 n : Nat) :
    HeapData K V × Bool :=
  let r := heapifyDownLoop h d i0 n
  (r.1, decide (i0 < r.2))

/-- `heap.Push`. -/
def gPush (h : HeapIntf K V) (d : HeapData K V) (x : V) : HeapData K V :=
  let d1 := h.Push d x
  heapifyUp h d1 (h.Len d1 - 1)

/-- `heap.Pop`: `n := Len()-1; if n < 0` is the empty check. -/
def gPop (h : HeapIntf K V) (d : HeapData K V) : Except String V × HeapData K V :=
  if h.Len d = 0 then (.error "pop a empty heap", d)
  else
    let n := h.Len d - 1
    let d1 := h.Swap d 0 n
    let r := heapifyDown h d1 0 n
    h.Pop r.1

/-- `heap.Remove`. -/
def gRemove (h : HeapIntf K V) (d : HeapData K V) (i : Nat) :
    Except String V × HeapData K V :=
  if h.Len d = 0 then (.error "remove a empty heap", d)
  else
    let n := h.Len d - 1
    if n ≠ i then
      let d1 := h.Swap d i n
      let r := heapifyDown h d1 i n
      let d3 := if r.2 then r.1 else heapifyUp h r.1 i
      h.Pop d3
    else h.Pop d

/-- `heap.Fix`. -/
def gFix (h : HeapIntf K V) (d : HeapData K V) (i : Nat) : HeapData K V :=
  let r := heapifyDown h d i (h.Len d)
  if r.2 then r.1 else heapifyUp h r.1 i

/-- The `heap.Interface` instance given by `data` (heap/heap.go). -/
def dataIntf (formKey : V → K) (less : V → V → Bool) : HeapIntf K V :=
  { Len := fun d => d.queue.length
    Less := dataLess less
    Swap := dataSwap
    Push := dataPush formKey
    Pop := dataPop }

/-- The `heap.Interface` instance given by `concurrentData`
(heap/concurrent.go). -/
def cIntf (formKey : V → K) (less : V → V → Bool) : HeapIntf K V :=
  { Len := fun d => d.queue.length
    Less := cLess less
    Swap := cSwap
    Push := cPush formKey
    Pop := cPop }

/-! ## The `Heap` methods (heap/heap.go) and `currentHeap` methods
(heap/concurrent.go) -/

/-- `Heap.Add`: upsert.  If the key is present, overwrite the stored item's
value in place and `Fix` from its current index; otherwise `Push`. -/
def heapAdd (formKey : V → K) (less : V → V → Bool) (d : HeapData K V) (v : V) :
    HeapData K V :=
  let key := formKey v
  match mapGet d.items key with
  | some it =>
    gFix (dataIntf formKey less)
      { items := mapSet d.items key ⟨it.index, v⟩, queue := d.queue } it.index
  | none => gPush (dataIntf formKey less) d v

/-- `Heap.Delete`: look up by key; `Remove` at the stored index, else
`object not found`. -/
def heapDelete (formKey : V → K) (less : V → V → Bool) (d : HeapData K V) (v : V) :
    Except String Unit × HeapData K V :=
  match mapGet d.items (formKey v) with
  | some it =>
    let r := gRemove (dataIntf formKey less) d it.index
    (r.1.map fun _ => (), r.2)
  | none => (.error "object not found", d)

/-- `Heap.Peek`. -/
def heapPeek (d : HeapData K V) : Except String V := dataPeek d

/-- `Heap.Pop`. -/
def heapPop (formKey : V → K) (less : V → V → Bool) (d : HeapData K V) :
    Except String V × HeapData K V :=
  gPop (dataIntf formKey less) d

/-- `Heap.Get`: key lookup only, returning the stored value. -/
def heapGet (formKey : V → K) (d : HeapData K V) (v : V) : Option V :=
  (mapGet d.items (formKey v)).map heapItem.value

/-- `Heap.List`. -/
def heapList (d : HeapData K V) : List V := d.items.map fun p => p.2.value

/-- `Heap.Len`. -/
def heapLen (d : HeapData K V) : Nat := d.queue.length

/-- `newHeap`: empty table, nil queue. -/
def emptyHeap : HeapData K V := { items := [], queue := [] }

/-- `currentHeap.Add` (heap/concurrent.go): same upsert, via the concurrent
data methods. -/
def cHeapAdd (formKey : V → K) (less : V → V → Bool) (d : HeapData K V) (v : V) :
    HeapData K V :=
  let key := formKey v
  match mapGet d.items key with
  | some it =>
    gFix (cIntf formKey less)
      { items := mapSet d.items key ⟨it.index, v⟩, queue := d.queue } it.index
  | none => gPush (cIntf formKey less) d v

/-- `currentHeap.Delete`. -/
def cHeapDelete (formKey : V → K) (less : V → V → Bool) (d : HeapData K V) (v : V) :
    Except String Unit × HeapData K V :=
  match mapGet d.items (formKey v) with
  | some it =>
    let r := gRemove (cIntf formKey less) d it.index
    (r.1.map fun _ => (), r.2)
  | none => (.error "object not found", d)

/-- `currentHeap.Peek`. -/
def cHeapPeek (d : HeapData K V) : Except String V := cPeek d

/-- `currentHeap.Pop`. -/
def cHeapPop (formKey : V → K) (less : V → V → Bool) (d : HeapData K V) :
    Except String V × HeapData K V :=
  gPop (cIntf formKey less) d

/-- `currentHeap.Get`. -/
def cHeapGet (formKey : V → K) (d : HeapData K V) (v : V) : Option V :=
  (mapGet d.items (formKey v)).map heapItem.value

/-! ## Well-formedness and the heap invariant -/

/-- The value stored at queue position `i`. -/
def valAt (d : HeapData K V) (i : Nat) : Option V :=
  d.queue[i]?.bind fun k => (mapGet d.items k).map heapItem.value

/-- Structural well-formedness of the key-addressed heap state: queue keys
are distinct, table keys are distinct, every queue slot's key is in the table
with the matching back-index, and every table key appears in the queue. -/
structure WFb (d : HeapData K V) : Prop where
  nodup : d.queue.Nodup
  inodup : (mapKeys d.items).Nodup
  idx : ∀ i k, d.queue[i]? = some k → ∃ it, mapGet d.items k = some it ∧ it.index = i
  dom : ∀ k it, mapGet d.items k = some it → k ∈ d.queue

/-- The binary min-heap property, restricted to the first `n` positions. -/
def HeapPropN (less : V → V → Bool) (d : HeapData K V) (n : Nat) : Prop :=
  ∀ i j u v, (j = 2 * i + 1 ∨ j = 2 * i + 2) → j < n →
    valAt d j = some u → valAt d i = some v → less u v = false

/-- The binary min-heap property on the whole queue. -/
def HeapProp (less : V → V → Bool) (d : HeapData K V) : Prop :=
  HeapPropN less d d.queue.length

/-- Full well-formedness: structure plus heap order. -/
def WF (less : V → V → Bool) (d : HeapData K V) : Prop :=
  WFb d ∧ HeapProp less d

/-- Asymmetry of the caller's `Less` (part of the strict-weak-order
contract). -/
def Asymm (less : V → V → Bool) : Prop :=
  ∀ a b, less a b = true → less b a = false

/-- Negative transitivity of the caller's `Less` (the other half of the
strict-weak-order contract). -/
def NegTrans (less : V → V → Bool) : Prop :=
  ∀ a b c, less a b = false → less b c = false → less a c = false

theorem less_irrefl {less : V → V → Bool} (hA : Asymm less) (a : V) :
    less a a = false := by
  cases h : less a a with
  | false => rfl
  | true =>
    have h2 := hA a a h
    rw [h] at h2
    exact h2

theorem less_trans {less : V → V → Bool} (hA : Asymm less) (hN : NegTrans less)
    {a b c : V} (h1 : less a b = true) (h2 : less b c = true) :
    less a c = true := by
  cases h3 : less a c with
  | true => rfl
  | false =>
    have h4 : less c b = false := hA b c h2
    have h5 : less a b = false := hN a c b h3 h4
    rw [h1] at h5
    exact Bool.noConfusion h5

/-! ### Permutation helper for the two-`set` swap -/

theorem cons_set_perm {α : Type} (t : List α) (m : Nat) (b c : α)
    (h : t[m]? = some b) : (b :: t.set m c).Perm (c :: t) := by
  induction t generalizing m with
  | nil => simp at h
  | cons x t2 ih =>
    cases m with
    | zero =>
      have e : x = b := by simpa using h
      rw [← e]
      simpa [List.set] using List.Perm.swap c x t2
    | succ m2 =>
      simp only [List.getElem?_cons_succ] at h
      have step1 : (b :: x :: t2.set m2 c).Perm (x :: b :: t2.set m2 c) :=
        List.Perm.swap x b _
      have step2 : (x :: b :: t2.set m2 c).Perm (x :: c :: t2) :=
        (ih m2 h).cons x
      have step3 : (x :: c :: t2).Perm (c :: x :: t2) := List.Perm.swap c x t2
      simpa using (step1.trans step2).trans step3

theorem set_set_perm {α : Type} (l : List α) (i j : Nat) (ki kj : α)
    (hki : l[i]? = some ki) (hkj : l[j]? = some kj) :
    ((l.set i kj).set j ki).Perm l := by
  induction l generalizing i j with
  | nil => simp at hki
  | cons a t ih =>
    cases i with
    | zero =>
      have e1 : a = ki := by simpa using hki
      cases j with
      | zero =>
        have e2 : a = kj := by simpa using hkj
        rw [← e1, ← e2]
        simp [List.set]
      | succ m =>
        rw [List.getElem?_cons_succ] at hkj
        rw [← e1]
        simpa [List.set] using cons_set_perm t m kj a hkj
    | succ m =>
      rw [List.getElem?_cons_succ] at hki
      cases j with
      | zero =>
        have e2 : a = kj := by simpa using hkj
        rw [← e2]
        simpa [List.set] using cons_set_perm t m ki a hki
      | succ p =>
        rw [List.getElem?_cons_succ] at hkj
        simpa [List.set] using (ih m p hki hkj).cons a

/-! ### Basic `valAt` facts -/

theorem valAt_none_of_ge (d : HeapData K V) (p : Nat) (h : d.queue.length ≤ p) :
    valAt d p = none := by
  simp [valAt, List.getElem?_eq_none h]

theorem lt_length_of_valAt_some {d : HeapData K V} {p : Nat} {u : V}
    (h : valAt d p = some u) : p < d.queue.length := by
  by_contra hge
  rw [valAt_none_of_ge d p (by omega)] at h
  exact Option.noConfusion h

theorem WFb.valAt_isSome {d : HeapData K V} (hWF : WFb d) {p : Nat}
    (h : p < d.queue.length) : ∃ u, valAt d p = some u := by
  obtain ⟨k, hk⟩ : ∃ k, d.queue[p]? = some k := ⟨d.queue[p], List.getElem?_eq_getElem h⟩
  obtain ⟨it, hit, _⟩ := hWF.idx p k hk
  exact ⟨it.value, by simp [valAt, hk, hit]⟩

/-! ### `setIndex` and `dataSwap` characterization -/

theorem setIndex_value (m : List (K × heapItem V)) (k : K) (p : Nat) (k' : K) :
    (mapGet (setIndex m k p) k').map heapItem.value
      = (mapGet m k').map heapItem.value := by
  unfold setIndex
  cases h : mapGet m k with
  | none => rfl
  | some it =>
    by_cases hk : k' = k
    · subst hk
      rw [mapGet_mapSet_self, h]
      simp
    · rw [mapGet_mapSet_ne _ _ _ _ hk]

theorem setIndex_get_self (m : List (K × heapItem V)) (k : K) (p : Nat)
    {it : heapItem V} (h : mapGet m k = some it) :
    mapGet (setIndex m k p) k = some ⟨p, it.value⟩ := by
  unfold setIndex
  rw [h, mapGet_mapSet_self]

theorem setIndex_get_ne (m : List (K × heapItem V)) (k : K) (p : Nat) (k' : K)
    (h : k' ≠ k) : mapGet (setIndex m k p) k' = mapGet m k' := by
  unfold setIndex
  cases hg : mapGet m k with
  | none => rfl
  | some it => rw [mapGet_mapSet_ne _ _ _ _ h]

theorem mapKeys_setIndex (m : List (K × heapItem V)) (k : K) (p : Nat) :
    mapKeys (setIndex m k p) = mapKeys m := by
  unfold setIndex
  cases hg : mapGet m k with
  | none => rfl
  | some it => exact mapKeys_mapSet_mem m k _ (mem_keys_of_mapGet_some hg)

/-- Unfolding `dataSwap` when both queue reads succeed. -/
theorem dataSwap_eq (d : HeapData K V) {i j : Nat} {ki kj : K}
    (hki : d.queue[i]? = some ki) (hkj : d.queue[j]? = some kj) :
    dataSwap d i j =
      { items := setIndex (setIndex d.items kj i) ki j
        queue := (d.queue.set i kj).set j ki } := by
  unfold dataSwap
  rw [hki, hkj]

theorem dataSwap_length (d : HeapData K V) (i j : Nat) :
    (dataSwap d i j).queue.length = d.queue.length := by
  unfold dataSwap
  cases hki : d.queue[i]? <;> cases hkj : d.queue[j]? <;> simp

theorem dataSwap_queue_getElem (d : HeapData K V) {i j : Nat} {ki kj : K}
    (hki : d.queue[i]? = some ki) (hkj : d.queue[j]? = some kj) (p : Nat) :
    (dataSwap d i j).queue[p]? =
      if p = j then some ki else if p = i then some kj else d.queue[p]? := by
  have hj : j < d.queue.length := (List.getElem?_eq_some_iff.mp hkj).1
  have hi : i < d.queue.length := (List.getElem?_eq_some_iff.mp hki).1
  rw [dataSwap_eq d hki hkj]
  by_cases hpj : p = j
  · subst hpj
    simp only [if_pos rfl]
    exact List.getElem?_set_eq_of_lt ki (by simpa using hj)
  · rw [if_neg hpj]
    rw [show ((d.queue.set i kj).set j ki)[p]? = (d.queue.set i kj)[p]? from
      List.getElem?_set_ne (fun h => hpj h.symm)]
    by_cases hpi : p = i
    · subst hpi
      rw [if_pos rfl]
      exact List.getElem?_set_eq_of_lt kj hi
    · rw [if_neg hpi]
      exact List.getElem?_set_ne (fun h => hpi h.symm)

theorem dataSwap_items_value (d : HeapData K V) (i j : Nat) (k : K) :
    (mapGet (dataSwap d i j).items k).map heapItem.value
      = (mapGet d.items k).map heapItem.value := by
  unfold dataSwap
  cases hki : d.queue[i]? <;> cases hkj : d.queue[j]? <;>
    simp [setIndex_value]

theorem dataSwap_items_get (d : HeapData K V) {i j : Nat} {ki kj : K}
    (hki : d.queue[i]? = some ki) (hkj : d.queue[j]? = some kj)
    {iti itj : heapItem V}
    (hgi : mapGet d.items ki = some iti) (hgj : mapGet d.items kj = some itj)
    (k : K) :
    mapGet (dataSwap d i j).items k =
      if k = ki then some ⟨j, iti.value⟩
      else if k = kj then some ⟨i, itj.value⟩
      else mapGet d.items k := by
  rw [dataSwap_eq d hki hkj]
  by_cases hk1 : k = ki
  · subst hk1
    rw [if_pos rfl]
    by_cases hkk : k = kj
    · subst hkk
      rw [hgi] at hgj
      injection hgj with he2
      subst he2
      have hinner := setIndex_get_self d.items k i hgi
      have houter := setIndex_get_self (setIndex d.items k i) k j hinner
      simpa using houter
    · exact setIndex_get_self _ _ _ ((setIndex_get_ne _ _ _ _ hkk).trans hgi)
  · rw [if_neg hk1, setIndex_get_ne _ _ _ _ hk1]
    by_cases hk2 : k = kj
    · subst hk2
      rw [if_pos rfl]
      exact setIndex_get_self _ _ _ hgj
    · rw [if_neg hk2, setIndex_get_ne _ _ _ _ hk2]

theorem mapKeys_dataSwap (d : HeapData K V) (i j : Nat) :
    mapKeys (dataSwap d i j).items = mapKeys d.items := by
  unfold dataSwap
  cases hki : d.queue[i]? <;> cases hkj : d.queue[j]? <;>
    simp [mapKeys_setIndex]

theorem dataSwap_queue_perm (d : HeapData K V) {i j : Nat} {ki kj : K}
    (hki : d.queue[i]? = some ki) (hkj : d.queue[j]? = some kj) :
    (dataSwap d i j).queue.Perm d.queue := by
  rw [dataSwap_eq d hki hkj]
  exact set_set_perm d.queue i j ki kj hki hkj

/-- `valAt` after a swap is `valAt` before the swap at the transposed
position. -/
theorem valAt_dataSwap (d : HeapData K V) {i j : Nat}
    (hi : i < d.queue.length) (hj : j < d.queue.length) (p : Nat) :
    valAt (dataSwap d i j) p
      = valAt d (if p = j then i else if p = i then j else p) := by
  obtain ⟨ki, hki⟩ : ∃ k, d.queue[i]? = some k := ⟨d.queue[i], List.getElem?_eq_getElem hi⟩
  obtain ⟨kj, hkj⟩ : ∃ k, d.queue[j]? = some k := ⟨d.queue[j], List.getElem?_eq_getElem hj⟩
  have hval : ∀ k, (mapGet (dataSwap d i j).items k).map heapItem.value
      = (mapGet d.items k).map heapItem.value := dataSwap_items_value d i j
  unfold valAt
  rw [dataSwap_queue_getElem d hki hkj p]
  by_cases hpj : p = j
  · subst hpj
    rw [if_pos rfl, if_pos rfl, hki]
    simp [hval ki]
  · by_cases hpi : p = i
    · subst hpi
      rw [if_neg hpj, if_neg hpj, if_pos rfl, if_pos rfl, hkj]
      simp [hval kj]
    · rw [if_neg hpj, if_neg hpj, if_neg hpi, if_neg hpi]
      cases hq : d.queue[p]? with
      | none => simp
      | some k => simp [hval k]

/-- Structural well-formedness is preserved by in-bounds swaps. -/
theorem WFb_dataSwap {d : HeapData K V} (hWF : WFb d) {i j : Nat}
    (hi : i < d.queue.length) (hj : j < d.queue.length) :
    WFb (dataSwap d i j) := by
  obtain ⟨ki, hki⟩ : ∃ k, d.queue[i]? = some k := ⟨d.queue[i], List.getElem?_eq_getElem hi⟩
  obtain ⟨kj, hkj⟩ : ∃ k, d.queue[j]? = some k := ⟨d.queue[j], List.getElem?_eq_getElem hj⟩
  obtain ⟨iti, hgi, hii⟩ := hWF.idx i ki hki
  obtain ⟨itj, hgj, hij⟩ := hWF.idx j kj hkj
  have hperm := dataSwap_queue_perm d hki hkj
  refine ⟨hperm.nodup_iff.mpr hWF.nodup, ?_, ?_, ?_⟩
  · rw [mapKeys_dataSwap]; exact hWF.inodup
  · intro p k hk
    rw [dataSwap_queue_getElem d hki hkj p] at hk
    by_cases hpj : p = j
    · rw [if_pos hpj] at hk
      injection hk with hk
      subst hk
      subst hpj
      rw [dataSwap_items_get d hki hkj hgi hgj ki, if_pos rfl]
      exact ⟨⟨p, iti.value⟩, rfl, rfl⟩
    · rw [if_neg hpj] at hk
      by_cases hpi : p = i
      · rw [if_pos hpi] at hk
        injection hk with hk
        subst hk
        subst hpi
        have hne : kj ≠ ki := by
          intro he
          subst he
          rw [hgi] at hgj
          injection hgj with he2
          rw [← he2] at hij
          rw [hii] at hij
          exact hpj (hij)
        rw [dataSwap_items_get d hki hkj hgi hgj kj, if_neg hne, if_pos rfl]
        exact ⟨⟨p, itj.value⟩, rfl, rfl⟩
      · -- untouched position
        rw [if_neg hpi] at hk
        have hplen : p < d.queue.length := (List.getElem?_eq_some_iff.mp hk).1
        have hne1 : k ≠ ki := fun he =>
          hpi (List.getElem?_inj hplen hWF.nodup (by rw [hk, hki, he]))
        have hne2 : k ≠ kj := fun he =>
          hpj (List.getElem?_inj hplen hWF.nodup (by rw [hk, hkj, he]))
        rw [dataSwap_items_get d hki hkj hgi hgj k, if_neg hne1, if_neg hne2]
        exact hWF.idx p k hk
  · intro k it hk
    have hsome : (mapGet d.items k).isSome := by
      have := dataSwap_items_value d i j k
      rw [hk] at this
      cases hg : mapGet d.items k with
      | none => rw [hg] at this; exact Option.noConfusion this
      | some it2 => rfl
    obtain ⟨it2, hit2⟩ := Option.isSome_iff_exists.mp hsome
    have hmem := hWF.dom k it2 hit2
    exact (hperm.mem_iff).mpr hmem

theorem valAt_some_elim {d : HeapData K V} {p : Nat} {u : V} (h : valAt d p = some u) :
    ∃ k it, d.queue[p]? = some k ∧ mapGet d.items k = some it ∧ it.value = u := by
  unfold valAt at h
  cases hq : d.queue[p]? with
  | none => rw [hq] at h; exact Option.noConfusion h
  | some k =>
    rw [hq] at h
    simp only [Option.some_bind] at h
    cases hg : mapGet d.items k with
    | none => rw [hg] at h; simp at h
    | some it =>
      rw [hg] at h
      simp only [Option.map_some'] at h
      injection h with h
      exact ⟨k, it, rfl, hg, h⟩

/-- `data.Less` computes the caller's `Less` on the two stored values. -/
theorem dataLess_eq (less : V → V → Bool) {d : HeapData K V} {i j : Nat} {u v : V}
    (hu : valAt d i = some u) (hv : valAt d j = some v) :
    dataLess less d i j = less u v := by
  obtain ⟨ki, iti, hki, hgi, hvi⟩ := valAt_some_elim hu
  obtain ⟨kj, itj, hkj, hgj, hvj⟩ := valAt_some_elim hv
  have hi := (List.getElem?_eq_some_iff.mp hki).1
  have hj := (List.getElem?_eq_some_iff.mp hkj).1
  unfold dataLess
  rw [if_neg (by omega)]
  simp [hki, hkj, hgi, hgj, hvi, hvj]

/-! ### The structural effect common to all sift steps -/

/-- Frame conditions of the sift loops relative to the bound `n`: structure
preserved, length preserved, tail positions (`≥ n`) untouched, each key's
stored value untouched (only `index` fields move), queue a permutation. -/
structure SiftOut (d d2 : HeapData K V) (n : Nat) : Prop where
  wfb : WFb d2
  len : d2.queue.length = d.queue.length
  tail : ∀ p, n ≤ p → d2.queue[p]? = d.queue[p]?
  values : ∀ k, (mapGet d2.items k).map heapItem.value
    = (mapGet d.items k).map heapItem.value
  perm : d2.queue.Perm d.queue

theorem SiftOut.refl {d : HeapData K V} (hWF : WFb d) (n : Nat) : SiftOut d d n :=
  ⟨hWF, rfl, fun _ _ => rfl, fun _ => rfl, List.Perm.refl _⟩

theorem SiftOut.trans {d1 d2 d3 : HeapData K V} {n : Nat}
    (h12 : SiftOut d1 d2 n) (h23 : SiftOut d2 d3 n) : SiftOut d1 d3 n :=
  ⟨h23.wfb, h23.len.trans h12.len,
    fun p hp => (h23.tail p hp).trans (h12.tail p hp),
    fun k => (h23.values k).trans (h12.values k),
    h23.perm.trans h12.perm⟩

theorem SiftOut.swap {d : HeapData K V} (hWF : WFb d) {i j n : Nat}
    (hi : i < n) (hj : j < n) (hn : n ≤ d.queue.length) :
    SiftOut d (dataSwap d i j) n := by
  have hi2 : i < d.queue.length := by omega
  have hj2 : j < d.queue.length := by omega
  obtain ⟨ki, hki⟩ : ∃ k, d.queue[i]? = some k :=
    ⟨d.queue[i], List.getElem?_eq_getElem hi2⟩
  obtain ⟨kj, hkj⟩ : ∃ k, d.queue[j]? = some k :=
    ⟨d.queue[j], List.getElem?_eq_getElem hj2⟩
  refine ⟨WFb_dataSwap hWF hi2 hj2, dataSwap_length d i j, ?_,
    dataSwap_items_value d i j, dataSwap_queue_perm d hki hkj⟩
  intro p hp
  rw [dataSwap_queue_getElem d hki hkj p, if_neg (by omega), if_neg (by omega)]

/-- `valAt` at tail positions is unchanged across a `SiftOut`. -/
theorem SiftOut.valAt_tail {d d2 : HeapData K V} {n : Nat} (h : SiftOut d d2 n)
    (p : Nat) (hp : n ≤ p) : valAt d2 p = valAt d p := by
  unfold valAt
  rw [h.tail p hp]
  cases hq : d.queue[p]? with
  | none => simp
  | some k => simp [h.values k]

theorem dataIntf_Less (formKey : V → K) (less : V → V → Bool) :
    (dataIntf formKey less).Less = dataLess less := rfl

theorem dataIntf_Swap (formKey : V → K) (less : V → V → Bool) :
    (dataIntf formKey less).Swap = dataSwap (K := K) (V := V) := rfl

theorem dataIntf_Len (formKey : V → K) (less : V → V → Bool) (d : HeapData K V) :
    (dataIntf formKey less).Len d = d.queue.length := rfl

theorem dataIntf_Push (formKey : V → K) (less : V → V → Bool) :
    (dataIntf formKey less).Push = dataPush formKey := rfl

theorem dataIntf_Pop (formKey : V → K) (less : V → V → Bool) :
    (dataIntf formKey less).Pop = dataPop (K := K) (V := V) := rfl

/-! ### Sift-down -/

/-- Invariant of the sift-down loop: within the first `n` positions all
parent-child edges are ordered except possibly those touching `hole`, and
the children of `hole` are already no-less than `hole`'s parent (so the edge
across `hole` is ordered). -/
structure SiftDownInv (less : V → V → Bool) (d : HeapData K V) (n hole : Nat) : Prop where
  bound : n ≤ d.queue.length
  hole_lt : hole < n
  heap : ∀ p c u v, (c = 2 * p + 1 ∨ c = 2 * p + 2) → c < n → p ≠ hole → c ≠ hole →
    valAt d c = some u → valAt d p = some v → less u v = false
  par : ∀ c u v, (c = 2 * hole + 1 ∨ c = 2 * hole + 2) → c < n → 0 < hole →
    valAt d c = some u → valAt d ((hole - 1) / 2) = some v → less u v = false

/-- The `minimum` child is in range, is one of the two children, and no
in-range child of `hole` is `less` than it. -/
theorem downMin_spec (formKey : V → K) {less : V → V → Bool}
    (hA : Asymm less) (d : HeapData K V) {n hole : Nat}
    (hWF : WFb d) (hbound : n ≤ d.queue.length) (hleft : 2 * hole + 1 < n) :
    (downMin (dataIntf formKey less) d hole n = 2 * hole + 1 ∨
      downMin (dataIntf formKey less) d hole n = 2 * hole + 2) ∧
    downMin (dataIntf formKey less) d hole n < n ∧
    (∀ c u w, (c = 2 * hole + 1 ∨ c = 2 * hole + 2) → c < n →
      valAt d c = some u →
      valAt d (downMin (dataIntf formKey less) d hole n) = some w →
      less u w = false) := by
  obtain ⟨ul, hul⟩ := hWF.valAt_isSome (show 2 * hole + 1 < d.queue.length by omega)
  unfold downMin
  rw [dataIntf_Less]
  by_cases hcond : 2 * hole + 1 + 1 < n ∧ dataLess less d (2 * hole + 1 + 1) (2 * hole + 1) = true
  · rw [if_pos hcond]
    obtain ⟨hrn, hrl⟩ := hcond
    obtain ⟨ur, hur⟩ := hWF.valAt_isSome (show 2 * hole + 1 + 1 < d.queue.length by omega)
    rw [dataLess_eq less hur hul] at hrl
    refine ⟨Or.inr rfl, by omega, ?_⟩
    intro c u w hc hcn hcu hcw
    rw [hur] at hcw
    injection hcw with hcw
    subst hcw
    rcases hc with hc | hc
    · subst hc
      rw [hul] at hcu
      injection hcu with hcu
      subst hcu
      exact hA _ _ hrl
    · subst hc
      rw [hur] at hcu
      injection hcu with hcu
      subst hcu
      exact less_irrefl hA _
  · rw [if_neg hcond]
    refine ⟨Or.inl rfl, by omega, ?_⟩
    intro c u w hc hcn hcu hcw
    rw [hul] at hcw
    injection hcw with hcw
    subst hcw
    rcases hc with hc | hc
    · subst hc
      rw [hul] at hcu
      injection hcu with hcu
      subst hcu
      exact less_irrefl hA _
    · subst hc
      obtain ⟨ur, hur⟩ := hWF.valAt_isSome (show 2 * hole + 2 < d.queue.length by omega)
      rw [show (2 * hole + 2) = 2 * hole + 1 + 1 from rfl] at hur
      rw [show (2 * hole + 2) = 2 * hole + 1 + 1 from rfl] at hcu
      rw [hur] at hcu
      injection hcu with hcu
      subst hcu
      cases hrl : dataLess less d (2 * hole + 1 + 1) (2 * hole + 1) with
      | true => exact absurd ⟨by omega, hrl⟩ hcond
      | false =>
        rw [dataLess_eq less hur hul] at hrl
        exact hrl

/-- One swap of the sift-down loop re-establishes the invariant at the
minimum child, whose upward edge is now ordered. -/
theorem siftDown_step {less : V → V → Bool}
    (hA : Asymm less)
    {d : HeapData K V} {n hole m : Nat} {um uh : V} (hWF : WFb d)
    (inv : SiftDownInv less d n hole)
    (hmchild : m = 2 * hole + 1 ∨ m = 2 * hole + 2) (hmn : m < n)
    (hmin : ∀ c u w, (c = 2 * hole + 1 ∨ c = 2 * hole + 2) → c < n →
      valAt d c = some u → valAt d m = some w → less u w = false)
    (hvm : valAt d m = some um) (hvh : valAt d hole = some uh)
    (hless : less um uh = true) :
    WFb (dataSwap d hole m) ∧
    SiftDownInv less (dataSwap d hole m) n m ∧
    (∀ u v, 0 < m → valAt (dataSwap d hole m) m = some u →
      valAt (dataSwap d hole m) ((m - 1) / 2) = some v → less u v = false) := by
  have hbound := inv.bound
  have hhole_lt := inv.hole_lt
  have hhl : hole < d.queue.length := by omega
  have hml : m < d.queue.length := by omega
  have hholem : hole < m := by rcases hmchild with he | he <;> omega
  have hmhalf : (m - 1) / 2 = hole := by rcases hmchild with he | he <;> omega
  have hvswap := valAt_dataSwap d hhl hml
  -- valAt (dataSwap d hole m) p = valAt d (σ p) with σ the transposition
  have hv_at_m : valAt (dataSwap d hole m) m = valAt d hole := by
    rw [hvswap m, if_pos rfl]
  have hv_at_hole : valAt (dataSwap d hole m) hole = valAt d m := by
    rw [hvswap hole, if_neg (by omega), if_pos rfl]
  have hv_other : ∀ p, p ≠ hole → p ≠ m → valAt (dataSwap d hole m) p = valAt d p := by
    intro p h1 h2
    rw [hvswap p, if_neg h2, if_neg h1]
  refine ⟨WFb_dataSwap hWF hhl hml, ⟨by rw [dataSwap_length]; exact inv.bound, hmn, ?_, ?_⟩, ?_⟩
  · -- heap: all edges not touching m are ordered in the swapped state
    intro p c u v hedge hcn hpm hcm hcu hpv
    by_cases hphole : p = hole
    · -- c is a child of hole (c ≠ m): parent slot now holds um
      subst hphole
      rw [hv_at_hole, hvm] at hpv
      injection hpv with hpv
      rw [← hpv]
      have hchole : c ≠ p := by rcases hedge with he | he <;> omega
      rw [hv_other c hchole hcm] at hcu
      exact hmin c u um hedge hcn hcu hvm
    · by_cases hchole : c = hole
      · -- the upward edge of the old hole: child slot now holds um
        rw [hchole] at hedge hcn hcu
        have hppar : p = (hole - 1) / 2 := by rcases hedge with he | he <;> omega
        have hcpos : 0 < hole := by rcases hedge with he | he <;> omega
        rw [hv_other p hphole hpm] at hpv
        rw [hv_at_hole, hvm] at hcu
        injection hcu with hcu
        rw [← hcu]
        exact inv.par m um v hmchild hmn hcpos hvm (by rw [← hppar]; exact hpv)
      · -- untouched edge
        rw [hv_other c hchole hcm] at hcu
        rw [hv_other p hphole hpm] at hpv
        exact inv.heap p c u v hedge hcn hphole hchole hcu hpv
  · -- par: children of m versus m's parent (the old hole, now holding um)
    intro c u v hedge hcn _ hcu hpv
    rw [hmhalf, hv_at_hole, hvm] at hpv
    injection hpv with hpv
    rw [← hpv]
    have hchole : c ≠ hole := by rcases hedge with he | he <;> omega
    have hcm : c ≠ m := by rcases hedge with he | he <;> omega
    rw [hv_other c hchole hcm] at hcu
    exact inv.heap m c u um hedge hcn (by omega) hchole hcu hvm
  · -- the new hole's upward edge is ordered by asymmetry
    intro u v _ hu hv
    rw [hv_at_m, hvh] at hu
    injection hu with hu
    rw [hmhalf, hv_at_hole, hvm] at hv
    injection hv with hv
    rw [← hu, ← hv]
    exact hA _ _ hless

/-- Sift-down from a hole whose upward edge is already ordered restores the
heap property on the first `n` positions. -/
theorem siftDown_main {formKey : V → K} {less : V → V → Bool}
    (hA : Asymm less) (hN : NegTrans less)
    (d : HeapData K V) (n hole : Nat) (hWF : WFb d)
    (inv : SiftDownInv less d n hole)
    (hup : ∀ u v, 0 < hole → valAt d hole = some u →
      valAt d ((hole - 1) / 2) = some v → less u v = false) :
    SiftOut d (heapifyDownLoop (dataIntf formKey less) d hole n).1 n ∧
    HeapPropN less (heapifyDownLoop (dataIntf formKey less) d hole n).1 n ∧
    hole ≤ (heapifyDownLoop (dataIntf formKey less) d hole n).2 := by
  have hbound := inv.bound
  have hhole_lt := inv.hole_lt
  rw [heapifyDownLoop]
  by_cases hleft : n ≤ 2 * hole + 1
  · rw [if_pos hleft]
    refine ⟨SiftOut.refl hWF n, ?_, le_refl _⟩
    intro p c u v hedge hcn hcu hpv
    by_cases hchole : c = hole
    · rw [hchole] at hedge hcn hcu
      have hppar : p = (hole - 1) / 2 := by rcases hedge with he | he <;> omega
      have hcpos : 0 < hole := by rcases hedge with he | he <;> omega
      exact hup u v hcpos hcu (by rw [← hppar]; exact hpv)
    · by_cases hphole : p = hole
      · exfalso
        rw [hphole] at hedge
        rcases hedge with he | he <;> omega
      · exact inv.heap p c u v hedge hcn hphole hchole hcu hpv
  · rw [if_neg hleft]
    obtain ⟨hmchild, hmn, hmin⟩ :=
      downMin_spec formKey hA d hWF inv.bound (show 2 * hole + 1 < n by omega)
    have hmlen : downMin (dataIntf formKey less) d hole n < d.queue.length := by omega
    obtain ⟨um, hvm⟩ := hWF.valAt_isSome hmlen
    obtain ⟨uh, hvh⟩ := hWF.valAt_isSome (show hole < d.queue.length by omega)
    by_cases hbreak :
      (dataIntf formKey less).Less d (downMin (dataIntf formKey less) d hole n) hole = false
    · rw [if_pos hbreak]
      rw [dataIntf_Less, dataLess_eq less hvm hvh] at hbreak
      refine ⟨SiftOut.refl hWF n, ?_, le_refl _⟩
      intro p c u v hedge hcn hcu hpv
      by_cases hchole : c = hole
      · rw [hchole] at hedge hcn hcu
        have hppar : p = (hole - 1) / 2 := by rcases hedge with he | he <;> omega
        have hcpos : 0 < hole := by rcases hedge with he | he <;> omega
        exact hup u v hcpos hcu (by rw [← hppar]; exact hpv)
      · by_cases hphole : p = hole
        · -- children of the hole: through the minimum child and hN
          rw [hphole] at hedge
          rw [hphole] at hpv
          rw [hvh] at hpv
          injection hpv with hpv
          rw [← hpv]
          have h1 : less u um = false := hmin c u um hedge hcn hcu hvm
          exact hN u um uh h1 hbreak
        · exact inv.heap p c u v hedge hcn hphole hchole hcu hpv
    · rw [if_neg hbreak]
      have hless : less um uh = true := by
        rw [dataIntf_Less, dataLess_eq less hvm hvh] at hbreak
        cases h : less um uh with
        | true => rfl
        | false => exact absurd h hbreak
      rw [dataIntf_Swap]
      obtain ⟨hWF2, inv2, hup2⟩ :=
        siftDown_step hA hWF inv hmchild hmn hmin hvm hvh hless
      have hholem : hole < downMin (dataIntf formKey less) d hole n := by
        rcases hmchild with he | he <;> omega
      obtain ⟨hso, hhp, hle⟩ := siftDown_main hA hN _ n _ hWF2 inv2 hup2
      exact ⟨(SiftOut.swap hWF hhole_lt hmn hbound).trans hso, hhp, by omega⟩
termination_by n - hole
decreasing_by
  rcases hmchild with he | he <;> omega

/-- First iteration of sift-down with no assumption on the hole's upward
edge: either nothing moves (and the hole's downward edges are ordered), or
the entry moved down and the heap property holds on the first `n`
positions. -/
theorem siftDown_first {formKey : V → K} {less : V → V → Bool}
    (hA : Asymm less) (hN : NegTrans less)
    (d : HeapData K V) (n hole : Nat) (hWF : WFb d)
    (inv : SiftDownInv less d n hole) :
    SiftOut d (heapifyDownLoop (dataIntf formKey less) d hole n).1 n ∧
    hole ≤ (heapifyDownLoop (dataIntf formKey less) d hole n).2 ∧
    (hole < (heapifyDownLoop (dataIntf formKey less) d hole n).2 →
      HeapPropN less (heapifyDownLoop (dataIntf formKey less) d hole n).1 n) ∧
    ((heapifyDownLoop (dataIntf formKey less) d hole n).2 = hole →
      (heapifyDownLoop (dataIntf formKey less) d hole n).1 = d ∧
      ∀ c u v, (c = 2 * hole + 1 ∨ c = 2 * hole + 2) → c < n →
        valAt d c = some u → valAt d hole = some v → less u v = false) := by
  have hbound := inv.bound
  have hhole_lt := inv.hole_lt
  rw [heapifyDownLoop]
  by_cases hleft : n ≤ 2 * hole + 1
  · rw [if_pos hleft]
    refine ⟨SiftOut.refl hWF n, le_refl _, by omega, fun _ => ⟨rfl, ?_⟩⟩
    intro c u v hedge hcn hcu hpv
    exfalso
    rcases hedge with he | he <;> omega
  · rw [if_neg hleft]
    obtain ⟨hmchild, hmn, hmin⟩ :=
      downMin_spec formKey hA d hWF inv.bound (show 2 * hole + 1 < n by omega)
    have hmlen : downMin (dataIntf formKey less) d hole n < d.queue.length := by omega
    obtain ⟨um, hvm⟩ := hWF.valAt_isSome hmlen
    obtain ⟨uh, hvh⟩ := hWF.valAt_isSome (show hole < d.queue.length by omega)
    by_cases hbreak :
      (dataIntf formKey less).Less d (downMin (dataIntf formKey less) d hole n) hole = false
    · rw [if_pos hbreak]
      rw [dataIntf_Less, dataLess_eq less hvm hvh] at hbreak
      refine ⟨SiftOut.refl hWF n, le_refl _, by omega, fun _ => ⟨rfl, ?_⟩⟩
      intro c u v hedge hcn hcu hpv
      rw [hvh] at hpv
      injection hpv with hpv
      rw [← hpv]
      have h1 : less u um = false := hmin c u um hedge hcn hcu hvm
      exact hN u um uh h1 hbreak
    · rw [if_neg hbreak]
      have hless : less um uh = true := by
        rw [dataIntf_Less, dataLess_eq less hvm hvh] at hbreak
        cases h : less um uh with
        | true => rfl
        | false => exact absurd h hbreak
      rw [dataIntf_Swap]
      obtain ⟨hWF2, inv2, hup2⟩ :=
        siftDown_step hA hWF inv hmchild hmn hmin hvm hvh hless
      have hholem : hole < downMin (dataIntf formKey less) d hole n := by
        rcases hmchild with he | he <;> omega
      obtain ⟨hso, hhp, hle⟩ := siftDown_main hA hN _ n _ hWF2 inv2 hup2
      refine ⟨(SiftOut.swap hWF hhole_lt hmn hbound).trans hso, by omega,
        fun _ => hhp, fun heq => absurd heq (by omega)⟩

/-! ### Sift-up -/

theorem less_false_of_false_of_true {less : V → V → Bool}
    (hA : Asymm less) (hN : NegTrans less) {a b c : V}
    (h1 : less a c = false) (h2 : less b c = true) : less a b = false := by
  cases h : less a b with
  | false => rfl
  | true =>
    have := less_trans hA hN h h2
    rw [h1] at this
    exact Bool.noConfusion this

/-- Invariant of the sift-up loop: all edges whose child is not `hole` are
ordered, and the children of `hole` are no-less than `hole`'s parent (so the
parent may drop into the hole). -/
structure SiftUpInv (less : V → V → Bool) (d : HeapData K V) (n hole : Nat) : Prop where
  bound : n ≤ d.queue.length
  hole_lt : hole < n
  heap : ∀ p c u v, (c = 2 * p + 1 ∨ c = 2 * p + 2) → c < n → c ≠ hole →
    valAt d c = some u → valAt d p = some v → less u v = false
  par : ∀ c u v, (c = 2 * hole + 1 ∨ c = 2 * hole + 2) → c < n → 0 < hole →
    valAt d c = some u → valAt d ((hole - 1) / 2) = some v → less u v = false

/-- Sift-up restores the heap property on the first `n` positions. -/
theorem siftUp_main {formKey : V → K} {less : V → V → Bool}
    (hA : Asymm less) (hN : NegTrans less)
    (d : HeapData K V) (n hole : Nat) (hWF : WFb d)
    (inv : SiftUpInv less d n hole) :
    SiftOut d (heapifyUpLoop (dataIntf formKey less) d hole) n ∧
    HeapPropN less (heapifyUpLoop (dataIntf formKey less) d hole) n := by
  have hbound := inv.bound
  have hhole_lt := inv.hole_lt
  rw [heapifyUpLoop]
  by_cases hstop : (hole - 1) / 2 = hole ∨
      (dataIntf formKey less).Less d hole ((hole - 1) / 2) = false
  · rw [if_pos hstop]
    refine ⟨SiftOut.refl hWF n, ?_⟩
    intro p c u v hedge hcn hcu hpv
    by_cases hchole : c = hole
    · -- the hole's upward edge: either hole is the root or the stop test
      rcases hstop with hroot | hbreak
      · exfalso
        rw [hchole] at hedge
        rcases hedge with he | he <;> omega
      · rw [hchole] at hedge hcu
        have hppar : p = (hole - 1) / 2 := by rcases hedge with he | he <;> omega
        obtain ⟨uq, hvq⟩ := hWF.valAt_isSome
          (show (hole - 1) / 2 < d.queue.length by omega)
        rw [dataIntf_Less, dataLess_eq less hcu hvq] at hbreak
        rw [hppar, hvq] at hpv
        injection hpv with hpv
        rw [← hpv]
        exact hbreak
    · exact inv.heap p c u v hedge hcn hchole hcu hpv
  · rw [if_neg hstop]
    push_neg at hstop
    obtain ⟨hroot, hbreak⟩ := hstop
    have hpos : 0 < hole := by omega
    have hq_lt : (hole - 1) / 2 < hole := by omega
    obtain ⟨x, hvx⟩ := hWF.valAt_isSome (show hole < d.queue.length by omega)
    obtain ⟨pv, hvp⟩ := hWF.valAt_isSome
      (show (hole - 1) / 2 < d.queue.length by omega)
    have hless : less x pv = true := by
      rw [dataIntf_Less, dataLess_eq less hvx hvp] at hbreak
      cases h : less x pv with
      | true => rfl
      | false => exact absurd h hbreak
    rw [dataIntf_Swap]
    -- the swapped state: parent value drops into the hole, x moves up
    have hql : (hole - 1) / 2 < d.queue.length := by omega
    have hhl : hole < d.queue.length := by omega
    have hvswap := valAt_dataSwap d hql hhl
    have hv_at_hole : valAt (dataSwap d ((hole - 1) / 2) hole) hole
        = valAt d ((hole - 1) / 2) := by
      rw [hvswap hole, if_pos rfl]
    have hv_at_q : valAt (dataSwap d ((hole - 1) / 2) hole) ((hole - 1) / 2)
        = valAt d hole := by
      rw [hvswap ((hole - 1) / 2), if_neg (by omega), if_pos rfl]
    have hv_other : ∀ p, p ≠ (hole - 1) / 2 → p ≠ hole →
        valAt (dataSwap d ((hole - 1) / 2) hole) p = valAt d p := by
      intro p h1 h2
      rw [hvswap p, if_neg h2, if_neg h1]
    have hWF2 : WFb (dataSwap d ((hole - 1) / 2) hole) := WFb_dataSwap hWF hql hhl
    have hlen2 : (dataSwap d ((hole - 1) / 2) hole).queue.length = d.queue.length :=
      dataSwap_length d _ _
    have inv2 : SiftUpInv less (dataSwap d ((hole - 1) / 2) hole) n ((hole - 1) / 2) := by
      refine ⟨by omega, by omega, ?_, ?_⟩
      · -- edges with child ≠ new hole
        intro p c u v hedge hcn hcq hcu hpv
        by_cases hchole : c = hole
        · -- the old hole now carries the parent value pv, its parent carries x
          rw [hchole] at hedge hcu
          have hppar : p = (hole - 1) / 2 := by rcases hedge with he | he <;> omega
          rw [hv_at_hole, hvp] at hcu
          injection hcu with hcu
          rw [hppar, hv_at_q, hvx] at hpv
          injection hpv with hpv
          rw [← hcu, ← hpv]
          exact hA _ _ hless
        · by_cases hphole : p = hole
          · -- children of the old hole now sit under pv: the bridge
            rw [hphole] at hedge
            rw [hphole, hv_at_hole, hvp] at hpv
            injection hpv with hpv
            rw [← hpv]
            have hcq2 : c ≠ (hole - 1) / 2 := by rcases hedge with he | he <;> omega
            rw [hv_other c hcq2 hchole] at hcu
            exact inv.par c u pv hedge hcn hpos hcu hvp
          · by_cases hpq : p = (hole - 1) / 2
            · -- sibling of the old hole versus x
              rw [hpq, hv_at_q, hvx] at hpv
              injection hpv with hpv
              rw [← hpv]
              have hcq2 : c ≠ (hole - 1) / 2 := hcq
              rw [hv_other c hcq2 hchole] at hcu
              have hsib : less u pv = false := by
                refine inv.heap ((hole - 1) / 2) c u pv ?_ hcn hchole hcu hvp
                rw [← hpq]; exact hedge
              exact less_false_of_false_of_true hA hN hsib hless
            · -- untouched edge
              rw [hv_other c hcq hchole] at hcu
              rw [hv_other p hpq hphole] at hpv
              exact inv.heap p c u v hedge hcn hchole hcu hpv
      · -- the bridge at the new hole
        intro c u v hedge hcn hqpos hcu hpv
        have hgq : ((hole - 1) / 2 - 1) / 2 ≠ (hole - 1) / 2 := by omega
        have hgh : ((hole - 1) / 2 - 1) / 2 ≠ hole := by omega
        rw [hv_other _ hgq hgh] at hpv
        by_cases hchole : c = hole
        · -- the old hole (a child of the new hole) now carries pv
          rw [hchole, hv_at_hole, hvp] at hcu
          injection hcu with hcu
          rw [← hcu]
          -- old edge (grandparent, parent) was ordered: child (hole-1)/2 ≠ hole
          exact inv.heap (((hole - 1) / 2 - 1) / 2) ((hole - 1) / 2) pv v
            (by omega) (by omega) (by omega) hvp hpv
        · -- the sibling of the old hole under the grandparent
          have hcq2 : c ≠ (hole - 1) / 2 := by rcases hedge with he | he <;> omega
          rw [hv_other c hcq2 hchole] at hcu
          have h1 : less u pv = false :=
            inv.heap ((hole - 1) / 2) c u pv hedge hcn hchole hcu hvp
          have h2 : less pv v = false :=
            inv.heap (((hole - 1) / 2 - 1) / 2) ((hole - 1) / 2) pv v
              (by omega) (by omega) (by omega) hvp hpv
          exact hN u pv v h1 h2
    obtain ⟨hso, hhp⟩ := siftUp_main hA hN _ n _ hWF2 inv2
    exact ⟨(SiftOut.swap hWF (by omega) (by omega) hbound).trans hso, hhp⟩
termination_by hole
decreasing_by omega

/-! ### Operation-level lemmas -/

/-- The values currently stored in the heap, in queue order. -/
def valsList (d : HeapData K V) : List V :=
  d.queue.filterMap fun k => (mapGet d.items k).map heapItem.value

/-- The item table is the inverse of the queue: a stored item's `index` points
back at its key's queue slot. -/
theorem WFb.rev {d : HeapData K V} (hWF : WFb d) {k : K} {it : heapItem V}
    (h : mapGet d.items k = some it) : d.queue[it.index]? = some k := by
  have hmem := hWF.dom k it h
  obtain ⟨p, hlt, hp⟩ : ∃ p : Nat, p < d.queue.length ∧ d.queue[p]? = some k := by
    obtain ⟨i, hlt, he⟩ := List.getElem_of_mem hmem
    exact ⟨i, hlt, by rw [List.getElem?_eq_getElem hlt, he]⟩
  obtain ⟨it2, hit2, hidx⟩ := hWF.idx p k hp
  rw [h] at hit2
  injection hit2 with hit2
  rw [hit2, hidx]
  exact hp

theorem valAt_of_get {d : HeapData K V} (hWF : WFb d) {k : K} {it : heapItem V}
    (h : mapGet d.items k = some it) : valAt d it.index = some it.value := by
  unfold valAt
  rw [hWF.rev h]
  simp [h]

/-- In a well-formed heap the root is minimal: no stored value is `less`
than it. -/
theorem heapProp_root_min {less : V → V → Bool}
    (hA : Asymm less) (hN : NegTrans less) {d : HeapData K V}
    (hWF : WFb d) (hHP : HeapProp less d) {v : V} (hroot : valAt d 0 = some v) :
    ∀ p u, valAt d p = some u → less u v = false := by
  intro p
  induction p using Nat.strong_induction_on with
  | _ p ih =>
    intro u hu
    cases hp : p with
    | zero =>
      rw [hp] at hu
      rw [hroot] at hu
      injection hu with hu
      rw [← hu]
      exact less_irrefl hA v
    | succ p2 =>
      have hplen := lt_length_of_valAt_some hu
      have hpar_lt : (p - 1) / 2 < p := by omega
      obtain ⟨w, hw⟩ := hWF.valAt_isSome (show (p - 1) / 2 < d.queue.length by omega)
      have hedge : less u w = false := by
        refine hHP ((p - 1) / 2) p u w ?_ hplen hu hw
        omega
      have hrec : less w v = false := ih ((p - 1) / 2) (by omega) w hw
      exact hN u w v hedge hrec

/-- `valsList` only depends on the queue up to permutation and on the
value projection of the table. -/
theorem valsList_perm_of {d d2 : HeapData K V}
    (hq : d2.queue.Perm d.queue)
    (hv : ∀ k, (mapGet d2.items k).map heapItem.value
      = (mapGet d.items k).map heapItem.value) :
    (valsList d2).Perm (valsList d) := by
  unfold valsList
  have h1 : d2.queue.filterMap (fun k => (mapGet d2.items k).map heapItem.value)
      = d2.queue.filterMap (fun k => (mapGet d.items k).map heapItem.value) :=
    List.filterMap_congr fun a _ => hv a
  rw [h1]
  exact hq.filterMap _

theorem SiftOut.valsList_perm {d d2 : HeapData K V} {n : Nat} (h : SiftOut d d2 n) :
    (valsList d2).Perm (valsList d) :=
  valsList_perm_of h.perm h.values

/-- The state `data.Pop` leaves behind: last queue slot dropped, the popped
key deleted from the table. -/
def popState (d : HeapData K V) (klast : K) : HeapData K V :=
  { items := mapDel d.items klast, queue := d.queue.take (d.queue.length - 1) }

/-- Unfolding `dataPop` when the last slot's key is in the table. -/
theorem dataPop_eq (d : HeapData K V) {klast : K} {itlast : heapItem V}
    (hlast : d.queue[d.queue.length - 1]? = some klast)
    (hitem : mapGet d.items klast = some itlast) :
    dataPop d = (.ok itlast.value, popState d klast) := by
  unfold dataPop popState
  rw [hlast]
  simp [hitem]

/-- Removing the last queue slot (whose key is `klast`) preserves structure
and the heap property bounded by the shorter length. -/
theorem popLast_WF {less : V → V → Bool} {d : HeapData K V} {klast : K}
    (hWF : WFb d)
    (hlast : d.queue[d.queue.length - 1]? = some klast)
    (hHP : HeapPropN less d (d.queue.length - 1)) :
    WF less (popState d klast) := by
  have hlen : (popState d klast).queue.length = d.queue.length - 1 := by
    show (d.queue.take (d.queue.length - 1)).length = d.queue.length - 1
    rw [List.length_take]
    omega
  have htake : ∀ p : Nat, p < d.queue.length - 1 →
      (d.queue.take (d.queue.length - 1))[p]? = d.queue[p]? := by
    intro p hp
    exact List.getElem?_take_of_lt hp
  have hkey_ne : ∀ p : Nat, p < d.queue.length - 1 → ∀ k, d.queue[p]? = some k →
      k ≠ klast := by
    intro p hp k hk he
    subst he
    have := List.getElem?_inj (by omega : p < d.queue.length) hWF.nodup
      (hk.trans hlast.symm)
    omega
  have hvalAt : ∀ p : Nat, p < d.queue.length - 1 →
      valAt (popState d klast) p = valAt d p := by
    intro p hp
    show (d.queue.take (d.queue.length - 1))[p]?.bind _ = _
    rw [htake p hp]
    unfold valAt
    cases hq : d.queue[p]? with
    | none => simp
    | some k =>
      simp only [Option.some_bind]
      rw [show (popState d klast).items = mapDel d.items klast from rfl]
      rw [mapGet_mapDel_ne d.items klast k (hkey_ne p hp k hq)]
  constructor
  · constructor
    · exact (List.take_sublist _ _).nodup hWF.nodup
    · exact mapKeys_nodup_mapDel d.items klast hWF.inodup
    · intro p k hk
      have hp : p < d.queue.length - 1 := by
        have h2 := (List.getElem?_eq_some_iff.mp hk).1
        rw [hlen] at h2
        exact h2
      rw [show (popState d klast).queue = d.queue.take (d.queue.length - 1) from rfl,
        htake p hp] at hk
      obtain ⟨it, hit, hidx⟩ := hWF.idx p k hk
      exact ⟨it, by
        rw [show (popState d klast).items = mapDel d.items klast from rfl,
          mapGet_mapDel_ne d.items klast k (hkey_ne p hp k hk)]
        exact hit, hidx⟩
    · intro k it hk
      rw [show (popState d klast).items = mapDel d.items klast from rfl] at hk
      have hkne : k ≠ klast := by
        intro he
        subst he
        rw [mapGet_mapDel_self d.items k hWF.inodup] at hk
        exact Option.noConfusion hk
      rw [mapGet_mapDel_ne d.items klast k hkne] at hk
      have hmem := hWF.dom k it hk
      obtain ⟨p, hlt, hp⟩ : ∃ p : Nat, p < d.queue.length ∧ d.queue[p]? = some k := by
        obtain ⟨i, hlt, he⟩ := List.getElem_of_mem hmem
        exact ⟨i, hlt, by rw [List.getElem?_eq_getElem hlt, he]⟩
      have hplt : p < d.queue.length - 1 := by
        rcases Nat.lt_or_ge p (d.queue.length - 1) with h | h
        · exact h
        · exfalso
          have he3 : p = d.queue.length - 1 := by omega
          subst he3
          rw [hp] at hlast
          injection hlast with he2
          exact hkne he2
      have hfin : (popState d klast).queue[p]? = some k := by
        rw [show (popState d klast).queue = d.queue.take (d.queue.length - 1) from rfl,
          htake p hplt]
        exact hp
      exact List.getElem?_mem hfin
  · intro p c u v hedge hcn hcu hpv
    rw [hlen] at hcn
    have hplt : p < d.queue.length - 1 := by rcases hedge with he | he <;> omega
    rw [hvalAt c hcn] at hcu
    rw [hvalAt p hplt] at hpv
    exact hHP p c u v hedge hcn hcu hpv

/-- The queue splits as its prefix plus the last key. -/
theorem queue_eq_take_concat {d : HeapData K V} {klast : K}
    (hne : d.queue.length ≠ 0)
    (hlast : d.queue[d.queue.length - 1]? = some klast) :
    d.queue = d.queue.take (d.queue.length - 1) ++ [klast] := by
  have h1 : d.queue.take (d.queue.length - 1 + 1)
      = d.queue.take (d.queue.length - 1) ++ (d.queue[d.queue.length - 1]?).toList :=
    List.take_succ
  rw [hlast] at h1
  rw [show d.queue.length - 1 + 1 = d.queue.length from by omega,
    List.take_length d.queue] at h1
  exact h1

/-- `valsList` of the popped state: the old list is the new list plus the
popped value at the end. -/
theorem valsList_popState {d : HeapData K V} {klast : K} {itlast : heapItem V}
    (hWF : WFb d) (hne : d.queue.length ≠ 0)
    (hlast : d.queue[d.queue.length - 1]? = some klast)
    (hitem : mapGet d.items klast = some itlast) :
    valsList d = valsList (popState d klast) ++ [itlast.value] := by
  have hkey_ne : ∀ k, k ∈ d.queue.take (d.queue.length - 1) → k ≠ klast := by
    intro k hkmem he
    subst he
    obtain ⟨p, hlt, hp⟩ := List.getElem_of_mem hkmem
    have hlt2 : p < d.queue.length - 1 := by
      have h3 := hlt
      rw [List.length_take] at h3
      omega
    have hp2 : d.queue[p]? = some k := by
      rw [← List.getElem?_take_of_lt hlt2 (l := d.queue),
        List.getElem?_eq_getElem hlt, hp]
    have := List.getElem?_inj (show p < d.queue.length by omega) hWF.nodup
      (hp2.trans hlast.symm)
    omega
  unfold valsList popState
  conv_lhs => rw [queue_eq_take_concat hne hlast]
  rw [List.filterMap_append]
  congr 1
  · exact (List.filterMap_congr fun a ha => by
      rw [mapGet_mapDel_ne d.items klast a (hkey_ne a ha)]).symm
  · simp [hitem]

theorem popState_get_self {d : HeapData K V} (hWF : WFb d) (klast : K) :
    mapGet (popState d klast).items klast = none :=
  mapGet_mapDel_self d.items klast hWF.inodup

theorem popState_get_ne {d : HeapData K V} (klast : K) {k : K} (h : k ≠ klast) :
    mapGet (popState d klast).items k = mapGet d.items k :=
  mapGet_mapDel_ne d.items klast k h

/-! ### `Heap.Add` -/

/-- Full specification of `Heap.Add` (the upsert): well-formedness is
preserved; afterwards the key stores exactly `v`; no other key's stored
value changes; the size grows only when the key was absent. -/
theorem heapAdd_spec (formKey : V → K) {less : V → V → Bool}
    (hA : Asymm less) (hN : NegTrans less)
    (d : HeapData K V) (v : V) (hWF : WF less d) :
    WF less (heapAdd formKey less d v) ∧
    (mapGet (heapAdd formKey less d v).items (formKey v)).map heapItem.value = some v ∧
    (∀ k, k ≠ formKey v →
      (mapGet (heapAdd formKey less d v).items k).map heapItem.value
        = (mapGet d.items k).map heapItem.value) ∧
    (mapGet d.items (formKey v) = none →
      heapLen (heapAdd formKey less d v) = heapLen d + 1) ∧
    (∀ it, mapGet d.items (formKey v) = some it →
      heapLen (heapAdd formKey less d v) = heapLen d) := by
  obtain ⟨hWFb, hHP⟩ := hWF
  cases hget : mapGet d.items (formKey v) with
  | some it =>
    -- upsert in place: overwrite the stored value, then Fix from its index
    have hrev := hWFb.rev hget
    have hi_lt : it.index < d.queue.length := (List.getElem?_eq_some_iff.mp hrev).1
    have hAddEq : heapAdd formKey less d v
        = gFix (dataIntf formKey less)
          { items := mapSet d.items (formKey v) ⟨it.index, v⟩, queue := d.queue }
          it.index := by
      simp only [heapAdd, hget]
    set d1 : HeapData K V :=
      { items := mapSet d.items (formKey v) ⟨it.index, v⟩, queue := d.queue } with hd1
    have hd1len : d1.queue.length = d.queue.length := rfl
    have hkey_at : ∀ p k, d.queue[p]? = some k → k = formKey v → p = it.index := by
      intro p k hp he
      subst he
      exact List.getElem?_inj (List.getElem?_eq_some_iff.mp hp).1 hWFb.nodup
        (hp.trans hrev.symm)
    have hWFb1 : WFb d1 := by
      refine ⟨hWFb.nodup, ?_, ?_, ?_⟩
      · show (mapKeys (mapSet d.items (formKey v) ⟨it.index, v⟩)).Nodup
        rw [mapKeys_mapSet_mem d.items (formKey v) _ (mem_keys_of_mapGet_some hget)]
        exact hWFb.inodup
      · intro p k hp
        by_cases hk : k = formKey v
        · rw [hk] at hp
          have hpi := hkey_at p (formKey v) hp rfl
          refine ⟨⟨it.index, v⟩, ?_, hpi.symm⟩
          rw [hk]
          show mapGet (mapSet d.items (formKey v) ⟨it.index, v⟩) (formKey v) = _
          rw [mapGet_mapSet_self]
        · obtain ⟨it2, hit2, hidx2⟩ := hWFb.idx p k hp
          exact ⟨it2, by
            show mapGet (mapSet d.items (formKey v) ⟨it.index, v⟩) k = _
            rw [mapGet_mapSet_ne _ _ _ _ hk]
            exact hit2, hidx2⟩
      · intro k it2 hk
        by_cases hk2 : k = formKey v
        · rw [hk2]
          exact hWFb.dom (formKey v) it hget
        · rw [show mapGet d1.items k = mapGet d.items k from by
            show mapGet (mapSet d.items (formKey v) ⟨it.index, v⟩) k = _
            rw [mapGet_mapSet_ne _ _ _ _ hk2]] at hk
          exact hWFb.dom k it2 hk
    have hval1_at : valAt d1 it.index = some v := by
      unfold valAt
      rw [show d1.queue = d.queue from rfl, hrev]
      simp only [Option.some_bind]
      rw [show mapGet d1.items (formKey v) = some ⟨it.index, v⟩ from by
        show mapGet (mapSet d.items (formKey v) ⟨it.index, v⟩) (formKey v) = _
        rw [mapGet_mapSet_self]]
      rfl
    have hval1_ne : ∀ p, p ≠ it.index → valAt d1 p = valAt d p := by
      intro p hp
      unfold valAt
      rw [show d1.queue = d.queue from rfl]
      cases hq : d.queue[p]? with
      | none => simp
      | some k =>
        simp only [Option.some_bind]
        have hkne : k ≠ formKey v := fun he => hp (hkey_at p k hq he)
        rw [show mapGet d1.items k = mapGet d.items k from by
          show mapGet (mapSet d.items (formKey v) ⟨it.index, v⟩) k = _
          rw [mapGet_mapSet_ne _ _ _ _ hkne]]
    have hinvDown : SiftDownInv less d1 d.queue.length it.index := by
      refine ⟨le_of_eq hd1len, hi_lt, ?_, ?_⟩
      · intro p c u w hedge hcn hpne hcne hcu hpw
        rw [hval1_ne c hcne] at hcu
        rw [hval1_ne p hpne] at hpw
        exact hHP p c u w hedge hcn hcu hpw
      · intro c u w hedge hcn hpos hcu hpw
        have hcne : c ≠ it.index := by rcases hedge with he | he <;> omega
        have hqne : (it.index - 1) / 2 ≠ it.index := by omega
        rw [hval1_ne c hcne] at hcu
        rw [hval1_ne _ hqne] at hpw
        have hold : valAt d it.index = some it.value := valAt_of_get hWFb hget
        have h1 : less u it.value = false := hHP it.index c u it.value hedge hcn hcu hold
        have h2 : less it.value w = false := by
          refine hHP ((it.index - 1) / 2) it.index it.value w ?_ hi_lt hold hpw
          omega
        exact hN u it.value w h1 h2
    have hparUp : ∀ c u w, (c = 2 * it.index + 1 ∨ c = 2 * it.index + 2) →
        c < d.queue.length → 0 < it.index →
        valAt d1 c = some u → valAt d1 ((it.index - 1) / 2) = some w →
        less u w = false := by
      intro c u w hedge hcn hpos hcu hpw
      have hcne : c ≠ it.index := by rcases hedge with he | he <;> omega
      have hqne : (it.index - 1) / 2 ≠ it.index := by omega
      rw [hval1_ne c hcne] at hcu
      rw [hval1_ne _ hqne] at hpw
      have hold : valAt d it.index = some it.value := valAt_of_get hWFb hget
      have h1 : less u it.value = false := hHP it.index c u it.value hedge hcn hcu hold
      have h2 : less it.value w = false := by
        refine hHP ((it.index - 1) / 2) it.index it.value w ?_ hi_lt hold hpw
        omega
      exact hN u it.value w h1 h2
    -- run Fix = heapifyDown, then heapifyUp when nothing moved
    obtain ⟨hso, hle, hmoved, hnomove⟩ :=
      siftDown_first hA hN d1 d.queue.length it.index hWFb1 hinvDown
    have hLen1 : (dataIntf formKey less).Len d1 = d.queue.length := rfl
    have hfix : gFix (dataIntf formKey less) d1 it.index
        = (if it.index < (heapifyDownLoop (dataIntf formKey less) d1 it.index
            d.queue.length).2 then
            (heapifyDownLoop (dataIntf formKey less) d1 it.index d.queue.length).1
          else heapifyUp (dataIntf formKey less)
            (heapifyDownLoop (dataIntf formKey less) d1 it.index d.queue.length).1
            it.index) := by
      unfold gFix heapifyDown
      rw [hLen1]
      by_cases h : it.index
          < (heapifyDownLoop (dataIntf formKey less) d1 it.index d.queue.length).2
      · rw [if_pos h, if_pos (by simpa using h)]
      · rw [if_neg h, if_neg (by simpa using h)]
    rw [hAddEq, hfix]
    by_cases hmv : it.index
        < (heapifyDownLoop (dataIntf formKey less) d1 it.index d.queue.length).2
    · rw [if_pos hmv]
      have hHP2 := hmoved hmv
      refine ⟨⟨hso.wfb, ?_⟩, ?_, ?_, ?_, ?_⟩
      · show HeapPropN less _ _
        rw [show (heapifyDownLoop (dataIntf formKey less) d1 it.index
          d.queue.length).1.queue.length = d.queue.length from hso.len.trans hd1len]
        exact hHP2
      · rw [hso.values (formKey v)]
        show (mapGet (mapSet d.items (formKey v) ⟨it.index, v⟩)
          (formKey v)).map heapItem.value = some v
        rw [mapGet_mapSet_self]
        rfl
      · intro k hk
        rw [hso.values k]
        show (mapGet (mapSet d.items (formKey v) ⟨it.index, v⟩) k).map heapItem.value = _
        rw [mapGet_mapSet_ne _ _ _ _ hk]
      · intro hnone
        exact Option.noConfusion hnone
      · intro it2 hit2
        show (heapifyDownLoop (dataIntf formKey less) d1 it.index
          d.queue.length).1.queue.length = d.queue.length
        exact hso.len.trans hd1len
    · rw [if_neg hmv]
      have heq : (heapifyDownLoop (dataIntf formKey less) d1 it.index
          d.queue.length).2 = it.index := by omega
      obtain ⟨hstate, hdown⟩ := hnomove heq
      rw [hstate]
      unfold heapifyUp
      have hinvUp : SiftUpInv less d1 d.queue.length it.index := by
        refine ⟨le_of_eq hd1len, hi_lt, ?_, hparUp⟩
        intro p c u w hedge hcn hcne hcu hpw
        by_cases hpne : p = it.index
        · subst hpne
          exact hdown c u w hedge hcn hcu hpw
        · rw [hval1_ne c hcne] at hcu
          rw [hval1_ne p hpne] at hpw
          exact hHP p c u w hedge hcn hcu hpw
      obtain ⟨hso2, hHP2⟩ := siftUp_main hA hN d1 d.queue.length it.index hWFb1 hinvUp
      refine ⟨⟨hso2.wfb, ?_⟩, ?_, ?_, ?_, ?_⟩
      · show HeapPropN less _ _
        rw [show (heapifyUpLoop (dataIntf formKey less) d1
          it.index).queue.length = d.queue.length from hso2.len.trans hd1len]
        exact hHP2
      · rw [hso2.values (formKey v)]
        show (mapGet (mapSet d.items (formKey v) ⟨it.index, v⟩)
          (formKey v)).map heapItem.value = some v
        rw [mapGet_mapSet_self]
        rfl
      · intro k hk
        rw [hso2.values k]
        show (mapGet (mapSet d.items (formKey v) ⟨it.index, v⟩) k).map heapItem.value = _
        rw [mapGet_mapSet_ne _ _ _ _ hk]
      · intro hnone
        exact Option.noConfusion hnone
      · intro it2 hit2
        show (heapifyUpLoop (dataIntf formKey less) d1 it.index).queue.length
          = d.queue.length
        exact hso2.len.trans hd1len
  | none =>
    -- fresh key: append and sift up
    have hAddEq : heapAdd formKey less d v = gPush (dataIntf formKey less) d v := by
      simp only [heapAdd, hget]
    have hfresh_mem : formKey v ∉ d.queue := by
      intro hmem
      obtain ⟨p, hlt, hp⟩ := List.getElem_of_mem hmem
      have hp2 : d.queue[p]? = some (formKey v) := by
        rw [List.getElem?_eq_getElem hlt, hp]
      obtain ⟨it2, hit2, _⟩ := hWFb.idx p (formKey v) hp2
      rw [hget] at hit2
      exact Option.noConfusion hit2
    set d1 : HeapData K V := dataPush formKey d v with hd1
    have hd1queue : d1.queue = d.queue ++ [formKey v] := rfl
    have hd1items : d1.items = mapSet d.items (formKey v) ⟨d.queue.length, v⟩ := rfl
    have hd1len : d1.queue.length = d.queue.length + 1 := by
      rw [hd1queue, List.length_append]
      rfl
    have hkey_lt : ∀ (p : Nat) (k : K), d.queue[p]? = some k → k ≠ formKey v := by
      intro p k hp he
      subst he
      exact hfresh_mem (List.getElem?_mem hp)
    have hval1_lt : ∀ p, p < d.queue.length → valAt d1 p = valAt d p := by
      intro p hp
      unfold valAt
      rw [hd1queue, List.getElem?_append_left hp]
      cases hq : d.queue[p]? with
      | none => simp
      | some k =>
        simp only [Option.some_bind]
        rw [hd1items, mapGet_mapSet_ne _ _ _ _ (hkey_lt p k hq)]
    have hval1_last : valAt d1 d.queue.length = some v := by
      unfold valAt
      rw [hd1queue, List.getElem?_append_right (le_refl _)]
      simp only [Nat.sub_self, List.getElem?_cons_zero, Option.some_bind]
      rw [hd1items, mapGet_mapSet_self]
      rfl
    have hWFb1 : WFb d1 := by
      refine ⟨?_, ?_, ?_, ?_⟩
      · rw [hd1queue]
        rw [List.nodup_append]
        exact ⟨hWFb.nodup, List.nodup_singleton _, by
          intro a ha hb
          rw [List.mem_singleton] at hb
          subst hb
          exact hfresh_mem ha⟩
      · have hknot : formKey v ∉ mapKeys d.items := by
          intro hmem
          obtain ⟨b, hb⟩ := mapGet_isSome_of_mem_keys hmem
          rw [hget] at hb
          exact Option.noConfusion hb
        rw [hd1items, mapKeys_mapSet_not_mem d.items (formKey v) _ hknot]
        rw [List.nodup_append]
        refine ⟨hWFb.inodup, List.nodup_singleton _, ?_⟩
        intro a ha hb
        rw [List.mem_singleton] at hb
        rw [hb] at ha
        exact hknot ha
      · intro p k hp
        rw [hd1queue] at hp
        by_cases hplen : p < d.queue.length
        · rw [List.getElem?_append_left hplen] at hp
          obtain ⟨it2, hit2, hidx2⟩ := hWFb.idx p k hp
          exact ⟨it2, by
            rw [hd1items, mapGet_mapSet_ne _ _ _ _ (hkey_lt p k hp)]
            exact hit2, hidx2⟩
        · have hple : d.queue.length ≤ p := by omega
          rw [List.getElem?_append_right hple] at hp
          have hp0 : p = d.queue.length := by
            by_contra hne2
            have : 1 ≤ p - d.queue.length := by omega
            rw [List.getElem?_eq_none (by simpa using this)] at hp
            exact Option.noConfusion hp
          subst hp0
          rw [Nat.sub_self, List.getElem?_cons_zero] at hp
          injection hp with hp
          subst hp
          exact ⟨⟨d.queue.length, v⟩, by rw [hd1items, mapGet_mapSet_self], rfl⟩
      · intro k it2 hk
        rw [hd1queue]
        by_cases hk2 : k = formKey v
        · subst hk2
          exact List.mem_append_right _ (List.mem_singleton.mpr rfl)
        · rw [hd1items, mapGet_mapSet_ne _ _ _ _ hk2] at hk
          exact List.mem_append_left _ (hWFb.dom k it2 hk)
    have hinvUp : SiftUpInv less d1 (d.queue.length + 1) d.queue.length := by
      refine ⟨le_of_eq hd1len.symm, by omega, ?_, ?_⟩
      · intro p c u w hedge hcn hcne hcu hpw
        have hclt : c < d.queue.length := by omega
        have hplt : p < d.queue.length := by rcases hedge with he | he <;> omega
        rw [hval1_lt c hclt] at hcu
        rw [hval1_lt p hplt] at hpw
        exact hHP p c u w hedge hclt hcu hpw
      · intro c u w hedge hcn hpos hcu hpw
        exfalso
        rcases hedge with he | he <;> omega
    have hPushEq : gPush (dataIntf formKey less) d v
        = heapifyUpLoop (dataIntf formKey less) d1 d.queue.length := by
      have h1 : (dataIntf formKey less).Len ((dataIntf formKey less).Push d v) - 1
          = d.queue.length := by
        show (dataPush formKey d v).queue.length - 1 = d.queue.length
        rw [show (dataPush formKey d v).queue = d.queue ++ [formKey v] from rfl,
          List.length_append]
        simp
      show heapifyUp (dataIntf formKey less) ((dataIntf formKey less).Push d v)
        ((dataIntf formKey less).Len ((dataIntf formKey less).Push d v) - 1)
        = heapifyUpLoop (dataIntf formKey less) d1 d.queue.length
      rw [h1]
      rfl
    obtain ⟨hso, hHP2⟩ :=
      siftUp_main hA hN d1 (d.queue.length + 1) d.queue.length hWFb1 hinvUp
    rw [hAddEq, hPushEq]
    refine ⟨⟨hso.wfb, ?_⟩, ?_, ?_, ?_, ?_⟩
    · show HeapPropN less _ _
      rw [show (heapifyUpLoop (dataIntf formKey less) d1
        d.queue.length).queue.length = d.queue.length + 1 from hso.len.trans hd1len]
      exact hHP2
    · rw [hso.values (formKey v), hd1items, mapGet_mapSet_self]
      rfl
    · intro k hk
      rw [hso.values k, hd1items, mapGet_mapSet_ne _ _ _ _ hk]
    · intro _
      show (heapifyUpLoop (dataIntf formKey less) d1 d.queue.length).queue.length
        = d.queue.length + 1
      exact hso.len.trans hd1len
    · intro it2 hit2
      exact Option.noConfusion hit2

/-! ### `Heap.Pop` and `Heap.Peek` -/

theorem valAt_mem_valsList {d : HeapData K V} {p : Nat} {u : V}
    (h : valAt d p = some u) : u ∈ valsList d := by
  obtain ⟨k, it, hk, hit, hval⟩ := valAt_some_elim h
  unfold valsList
  rw [List.mem_filterMap]
  exact ⟨k, List.getElem?_mem hk, by rw [hit, Option.map_some', hval]⟩

theorem mem_valsList_elim {d : HeapData K V} {u : V} (h : u ∈ valsList d) :
    ∃ p, valAt d p = some u := by
  unfold valsList at h
  rw [List.mem_filterMap] at h
  obtain ⟨k, hkmem, hk⟩ := h
  obtain ⟨p, hlt, hp⟩ := List.getElem_of_mem hkmem
  refine ⟨p, ?_⟩
  unfold valAt
  rw [List.getElem?_eq_getElem hlt, hp]
  simpa using hk

/-- Full specification of `Heap.Pop` on a nonempty well-formed heap: it
returns the root (the value `Peek` reports), which is minimal under `less`;
the root's key is removed and nothing else changes. -/
theorem heapPop_spec (formKey : V → K) {less : V → V → Bool}
    (hA : Asymm less) (hN : NegTrans less)
    (d : HeapData K V) (hWF : WF less d) (hne : d.queue ≠ []) :
    ∃ v k0 d2, d.queue[0]? = some k0 ∧
      heapPop formKey less d = (.ok v, d2) ∧
      heapPeek d = .ok v ∧
      (∀ u, u ∈ valsList d → less u v = false) ∧
      WF less d2 ∧
      heapLen d2 = heapLen d - 1 ∧
      (valsList d).Perm (v :: valsList d2) ∧
      mapGet d2.items k0 = none ∧
      (∀ k, k ≠ k0 → (mapGet d2.items k).map heapItem.value
        = (mapGet d.items k).map heapItem.value) := by
  obtain ⟨hWFb, hHP⟩ := hWF
  have hlen0 : d.queue.length ≠ 0 := by
    intro h
    exact hne (List.length_eq_zero.mp h)
  obtain ⟨k0, hk0⟩ : ∃ k, d.queue[0]? = some k :=
    ⟨d.queue[0], List.getElem?_eq_getElem (by omega)⟩
  obtain ⟨it0, hit0, hidx0⟩ := hWFb.idx 0 k0 hk0
  have hval0 : valAt d 0 = some it0.value := by
    unfold valAt
    rw [hk0]
    simp [hit0]
  have hPopEq : heapPop formKey less d
      = dataPop (heapifyDownLoop (dataIntf formKey less)
          (dataSwap d 0 (d.queue.length - 1)) 0 (d.queue.length - 1)).1 := by
    show gPop (dataIntf formKey less) d = _
    unfold gPop
    rw [if_neg (show ¬((dataIntf formKey less).Len d = 0) from hlen0)]
    rfl
  set n := d.queue.length - 1 with hn
  set d1 := dataSwap d 0 n with hd1
  have h0lt : 0 < d.queue.length := by omega
  have hnlt : n < d.queue.length := by omega
  obtain ⟨kn, hkn⟩ : ∃ k, d.queue[n]? = some k :=
    ⟨d.queue[n], List.getElem?_eq_getElem hnlt⟩
  have hWFb1 : WFb d1 := WFb_dataSwap hWFb h0lt hnlt
  have hd1len : d1.queue.length = d.queue.length := dataSwap_length d 0 n
  have hd1vals : ∀ k, (mapGet d1.items k).map heapItem.value
      = (mapGet d.items k).map heapItem.value := dataSwap_items_value d 0 n
  have hd1perm : d1.queue.Perm d.queue := dataSwap_queue_perm d hk0 hkn
  have hd1last : d1.queue[n]? = some k0 := by
    rw [hd1, dataSwap_queue_getElem d hk0 hkn n, if_pos rfl]
  -- run the sift (trivial when n = 0)
  have hloop : SiftOut d1 (heapifyDownLoop (dataIntf formKey less) d1 0 n).1 n ∧
      HeapPropN less (heapifyDownLoop (dataIntf formKey less) d1 0 n).1 n := by
    by_cases hone : n = 0
    · rw [hone, heapifyDownLoop, if_pos (by omega)]
      refine ⟨SiftOut.refl hWFb1 0, ?_⟩
      intro p c u v hedge hcn hcu hpv
      omega
    · have hvswap := valAt_dataSwap d h0lt hnlt
      have hinv : SiftDownInv less d1 n 0 := by
        refine ⟨by omega, by omega, ?_, ?_⟩
        · intro p c u v hedge hcn hpne hcne hcu hpv
          rw [hvswap c, if_neg (by omega), if_neg hcne] at hcu
          rw [hvswap p, if_neg (by omega), if_neg hpne] at hpv
          exact hHP p c u v hedge (by omega) hcu hpv
        · intro c u v hedge hcn hpos _ _
          omega
      obtain ⟨hso, hhp, _⟩ := siftDown_main hA hN d1 n 0 hWFb1 hinv
        (fun u v hpos _ _ => by omega)
      exact ⟨hso, hhp⟩
  obtain ⟨hso, hHPn⟩ := hloop
  set r1 := (heapifyDownLoop (dataIntf formKey less) d1 0 n).1 with hr1
  have hr1len : r1.queue.length = d.queue.length := hso.len.trans hd1len
  have hr1last : r1.queue[n]? = some k0 := (hso.tail n (le_refl n)).trans hd1last
  have hr1vals : ∀ k, (mapGet r1.items k).map heapItem.value
      = (mapGet d.items k).map heapItem.value :=
    fun k => (hso.values k).trans (hd1vals k)
  obtain ⟨itr, hitr, hitrval⟩ : ∃ itr, mapGet r1.items k0 = some itr ∧
      itr.value = it0.value := by
    have h2 := hr1vals k0
    rw [hit0] at h2
    cases hg : mapGet r1.items k0 with
    | none => rw [hg] at h2; simp at h2
    | some itr =>
      rw [hg] at h2
      simp only [Option.map_some'] at h2
      injection h2 with h2
      exact ⟨itr, rfl, h2⟩
  have hr1last2 : r1.queue[r1.queue.length - 1]? = some k0 := by
    rw [hr1len]
    exact hr1last
  have hpop2 : dataPop r1 = (.ok itr.value, popState r1 k0) :=
    dataPop_eq r1 hr1last2 hitr
  have hHPr1 : HeapPropN less r1 (r1.queue.length - 1) := by
    rw [hr1len]
    exact hHPn
  have hWF2 : WF less (popState r1 k0) := popLast_WF hso.wfb hr1last2 hHPr1
  have hlen2 : (popState r1 k0).queue.length = d.queue.length - 1 := by
    show (r1.queue.take (r1.queue.length - 1)).length = d.queue.length - 1
    rw [List.length_take]
    omega
  refine ⟨it0.value, k0, popState r1 k0, hk0, ?_, ?_, ?_, hWF2, hlen2, ?_, ?_, ?_⟩
  · rw [hPopEq, hpop2, hitrval]
  · simp [heapPeek, dataPeek, hk0, hit0]
  · intro u hu
    obtain ⟨p, hp⟩ := mem_valsList_elim hu
    exact heapProp_root_min hA hN hWFb hHP hval0 p u hp
  · have hperm1 : (valsList d1).Perm (valsList d) := valsList_perm_of hd1perm hd1vals
    have hperm2 : (valsList r1).Perm (valsList d1) := hso.valsList_perm
    have heq3 : valsList r1 = valsList (popState r1 k0) ++ [itr.value] :=
      valsList_popState hso.wfb (by omega) hr1last2 hitr
    have : (valsList d).Perm (valsList (popState r1 k0) ++ [itr.value]) := by
      rw [← heq3]
      exact (hperm2.trans hperm1).symm
    rw [hitrval] at this
    refine this.trans ?_
    exact List.perm_append_singleton _ _
  · exact popState_get_self hso.wfb k0
  · intro k hk
    rw [popState_get_ne k0 hk]
    exact hr1vals k

/-! ### `Heap.Delete` -/

/-- `Heap.Delete` only looks at the key of its argument, never the payload. -/
theorem heapDelete_key_only (formKey : V → K) (less : V → V → Bool)
    (d : HeapData K V) (v v2 : V) (h : formKey v = formKey v2) :
    heapDelete formKey less d v = heapDelete formKey less d v2 := by
  unfold heapDelete
  rw [h]

/-- The heap property survives shrinking the bound. -/
theorem HeapPropN.mono {less : V → V → Bool} {d : HeapData K V} {n n2 : Nat}
    (h : HeapPropN less d n) (hle : n2 ≤ n) : HeapPropN less d n2 :=
  fun p c u v hedge hcn hcu hpv => h p c u v hedge (by omega) hcu hpv

/-- Full specification of `Heap.Delete`: an absent key fails with
`object not found` and leaves the heap untouched; a present key removes
exactly that entry (whatever the argument's payload), shrinking the heap by
one and preserving everything else. -/
theorem heapDelete_spec (formKey : V → K) {less : V → V → Bool}
    (hA : Asymm less) (hN : NegTrans less)
    (d : HeapData K V) (v : V) (hWF : WF less d) :
    (mapGet d.items (formKey v) = none →
      heapDelete formKey less d v = (.error "object not found", d)) ∧
    (∀ it, mapGet d.items (formKey v) = some it →
      ∃ d2, heapDelete formKey less d v = (.ok (), d2) ∧
        WF less d2 ∧
        heapLen d2 = heapLen d - 1 ∧
        mapGet d2.items (formKey v) = none ∧
        (∀ k, k ≠ formKey v → (mapGet d2.items k).map heapItem.value
          = (mapGet d.items k).map heapItem.value) ∧
        (valsList d).Perm (it.value :: valsList d2)) := by
  obtain ⟨hWFb, hHP⟩ := hWF
  constructor
  · intro hget
    unfold heapDelete
    rw [hget]
  · intro it hget
    have hrev := hWFb.rev hget
    have hi_lt : it.index < d.queue.length := (List.getElem?_eq_some_iff.mp hrev).1
    have hlen0 : d.queue.length ≠ 0 := by omega
    have hDelEq : heapDelete formKey less d v
        = ((gRemove (dataIntf formKey less) d it.index).1.map fun _ => (),
           (gRemove (dataIntf formKey less) d it.index).2) := by
      unfold heapDelete
      rw [hget]
    set n := d.queue.length - 1 with hn
    by_cases hlast : n = it.index
    · -- deleting the last array slot: straight to `Pop`
      have hRemEq : gRemove (dataIntf formKey less) d it.index = dataPop d := by
        unfold gRemove
        rw [if_neg (show ¬((dataIntf formKey less).Len d = 0) from hlen0)]
        rw [if_neg (show ¬((dataIntf formKey less).Len d - 1 ≠ it.index) from by
          show ¬(d.queue.length - 1 ≠ it.index)
          omega)]
        rfl
      have hlastkey : d.queue[d.queue.length - 1]? = some (formKey v) := by
        rw [show d.queue.length - 1 = it.index from by omega]
        exact hrev
      have hpop2 : dataPop d = (.ok it.value, popState d (formKey v)) :=
        dataPop_eq d hlastkey hget
      have hWF2 : WF less (popState d (formKey v)) :=
        popLast_WF hWFb hlastkey (hHP.mono (by omega))
      refine ⟨popState d (formKey v), ?_, hWF2, ?_, ?_, ?_, ?_⟩
      · rw [hDelEq, hRemEq, hpop2]
        rfl
      · show (d.queue.take (d.queue.length - 1)).length = d.queue.length - 1
        rw [List.length_take]
        omega
      · exact popState_get_self hWFb (formKey v)
      · intro k hk
        rw [popState_get_ne (formKey v) hk]
      · have heq3 : valsList d = valsList (popState d (formKey v)) ++ [it.value] :=
          valsList_popState hWFb hlen0 hlastkey hget
        rw [heq3]
        exact List.perm_append_singleton _ _
    · -- swap to the end, repair, then `Pop`
      have hi_lt_n : it.index < n := by omega
      have hnlt : n < d.queue.length := by omega
      set d1 := dataSwap d it.index n with hd1
      obtain ⟨kn, hkn⟩ : ∃ k, d.queue[n]? = some k :=
        ⟨d.queue[n], List.getElem?_eq_getElem hnlt⟩
      have hWFb1 : WFb d1 := WFb_dataSwap hWFb hi_lt hnlt
      have hd1len : d1.queue.length = d.queue.length := dataSwap_length d it.index n
      have hd1vals : ∀ k, (mapGet d1.items k).map heapItem.value
          = (mapGet d.items k).map heapItem.value := dataSwap_items_value d it.index n
      have hd1perm : d1.queue.Perm d.queue := dataSwap_queue_perm d hrev hkn
      have hd1last : d1.queue[n]? = some (formKey v) := by
        rw [hd1, dataSwap_queue_getElem d hrev hkn n, if_pos rfl]
      have hvswap := valAt_dataSwap d hi_lt hnlt
      have hvold : valAt d it.index = some it.value := valAt_of_get hWFb hget
      have hinv : SiftDownInv less d1 n it.index := by
        refine ⟨by omega, hi_lt_n, ?_, ?_⟩
        · intro p c u w hedge hcn hpne hcne hcu hpw
          rw [hvswap c, if_neg (by omega), if_neg hcne] at hcu
          rw [hvswap p, if_neg (by omega), if_neg hpne] at hpw
          exact hHP p c u w hedge (by omega) hcu hpw
        · intro c u w hedge hcn hpos hcu hpw
          have hcne : c ≠ it.index := by rcases hedge with he | he <;> omega
          have hqne : (it.index - 1) / 2 ≠ it.index := by omega
          rw [hvswap c, if_neg (by omega), if_neg hcne] at hcu
          rw [hvswap _, if_neg (by omega), if_neg hqne] at hpw
          have h1 : less u it.value = false :=
            hHP it.index c u it.value hedge (by omega) hcu hvold
          have h2 : less it.value w = false := by
            refine hHP ((it.index - 1) / 2) it.index it.value w ?_ hi_lt hvold hpw
            omega
          exact hN u it.value w h1 h2
      obtain ⟨hso, hle, hmoved, hnomove⟩ :=
        siftDown_first hA hN d1 n it.index hWFb1 hinv
      -- the final pre-pop state, by whether the entry moved down
      have hRemEq : gRemove (dataIntf formKey less) d it.index
          = dataPop (if it.index
              < (heapifyDownLoop (dataIntf formKey less) d1 it.index n).2 then
              (heapifyDownLoop (dataIntf formKey less) d1 it.index n).1
            else heapifyUpLoop (dataIntf formKey less)
              (heapifyDownLoop (dataIntf formKey less) d1 it.index n).1 it.index) := by
        unfold gRemove
        rw [if_neg (show ¬((dataIntf formKey less).Len d = 0) from hlen0)]
        rw [if_pos (show (dataIntf formKey less).Len d - 1 ≠ it.index from by
          show d.queue.length - 1 ≠ it.index
          omega)]
        show dataPop (if (heapifyDown (dataIntf formKey less) d1 it.index n).2 = true
            then (heapifyDown (dataIntf formKey less) d1 it.index n).1
            else heapifyUp (dataIntf formKey less)
              (heapifyDown (dataIntf formKey less) d1 it.index n).1 it.index) = _
        by_cases hmv : it.index < (heapifyDownLoop (dataIntf formKey less) d1 it.index n).2
        · rw [if_pos (by simpa [heapifyDown] using hmv), if_pos hmv]
          rfl
        · rw [if_neg (by simpa [heapifyDown] using hmv), if_neg hmv]
          rfl
      have hfinal : ∃ r, (gRemove (dataIntf formKey less) d it.index = dataPop r) ∧
          SiftOut d1 r n ∧ HeapPropN less r n := by
        by_cases hmv : it.index < (heapifyDownLoop (dataIntf formKey less) d1 it.index n).2
        · exact ⟨_, by rw [hRemEq, if_pos hmv], hso, hmoved hmv⟩
        · have heq : (heapifyDownLoop (dataIntf formKey less) d1 it.index n).2
              = it.index := by omega
          obtain ⟨hstate, hdown⟩ := hnomove heq
          have hinvUp : SiftUpInv less d1 n it.index := by
            refine ⟨by omega, hi_lt_n, ?_, ?_⟩
            · intro p c u w hedge hcn hcne hcu hpw
              by_cases hpne : p = it.index
              · rw [hpne] at hedge hpw
                exact hdown c u w hedge hcn hcu hpw
              · rw [hvswap c, if_neg (by omega), if_neg hcne] at hcu
                rw [hvswap p, if_neg (by omega), if_neg hpne] at hpw
                exact hHP p c u w hedge (by omega) hcu hpw
            · exact hinv.par
          obtain ⟨hso2, hHP2⟩ := siftUp_main hA hN d1 n it.index hWFb1 hinvUp
          have hstate2 : heapifyUpLoop (dataIntf formKey less)
              (heapifyDownLoop (dataIntf formKey less) d1 it.index n).1 it.index
              = heapifyUpLoop (dataIntf formKey less) d1 it.index := by
            rw [hstate]
          exact ⟨heapifyUpLoop (dataIntf formKey less) d1 it.index,
            by rw [hRemEq, if_neg hmv, hstate2], hso2, hHP2⟩
      obtain ⟨r, hRemEq2, hsoR, hHPR⟩ := hfinal
      have hrlen : r.queue.length = d.queue.length := hsoR.len.trans hd1len
      have hrlast : r.queue[n]? = some (formKey v) :=
        (hsoR.tail n (le_refl n)).trans hd1last
      have hrvals : ∀ k, (mapGet r.items k).map heapItem.value
          = (mapGet d.items k).map heapItem.value :=
        fun k => (hsoR.values k).trans (hd1vals k)
      obtain ⟨itr, hitr, hitrval⟩ : ∃ itr, mapGet r.items (formKey v) = some itr ∧
          itr.value = it.value := by
        have h2 := hrvals (formKey v)
        rw [hget] at h2
        cases hg : mapGet r.items (formKey v) with
        | none => rw [hg] at h2; simp at h2
        | some itr =>
          rw [hg] at h2
          simp only [Option.map_some'] at h2
          injection h2 with h2
          exact ⟨itr, rfl, h2⟩
      have hrlast2 : r.queue[r.queue.length - 1]? = some (formKey v) := by
        rw [hrlen]
        exact hrlast
      have hpop2 : dataPop r = (.ok itr.value, popState r (formKey v)) :=
        dataPop_eq r hrlast2 hitr
      have hHPr : HeapPropN less r (r.queue.length - 1) := by
        rw [hrlen]
        exact hHPR
      have hWF2 : WF less (popState r (formKey v)) :=
        popLast_WF hsoR.wfb hrlast2 hHPr
      refine ⟨popState r (formKey v), ?_, hWF2, ?_, ?_, ?_, ?_⟩
      · rw [hDelEq, hRemEq2, hpop2, hitrval]
        rfl
      · show (r.queue.take (r.queue.length - 1)).length = d.queue.length - 1
        rw [List.length_take]
        omega
      · exact popState_get_self hsoR.wfb (formKey v)
      · intro k hk
        rw [popState_get_ne (formKey v) hk]
        exact hrvals k
      · have hperm1 : (valsList d1).Perm (valsList d) := valsList_perm_of hd1perm hd1vals
        have hperm2 : (valsList r).Perm (valsList d1) := hsoR.valsList_perm
        have heq3 : valsList r = valsList (popState r (formKey v)) ++ [itr.value] :=
          valsList_popState hsoR.wfb (by omega) hrlast2 hitr
        have h4 : (valsList d).Perm (valsList (popState r (formKey v)) ++ [itr.value]) := by
          rw [← heq3]
          exact (hperm2.trans hperm1).symm
        rw [hitrval] at h4
        exact h4.trans (List.perm_append_singleton _ _)

/-! ### The empty heap and operation sequences -/

theorem WF_emptyHeap (less : V → V → Bool) : WF less (emptyHeap (K := K) (V := V)) := by
  refine ⟨⟨List.nodup_nil, List.nodup_nil, ?_, ?_⟩, ?_⟩
  · intro i k hk
    simp [emptyHeap] at hk
  · intro k it hk
    simp [emptyHeap, mapGet] at hk
  · intro p c u v hedge hcn hcu hpv
    simp [emptyHeap] at hcn

/-- `Pop` on an empty heap reports `pop a empty heap` and leaves the state
untouched (the generic length check fires before `data.Pop` can panic). -/
theorem heapPop_empty (formKey : V → K) (less : V → V → Bool) (d : HeapData K V)
    (h : d.queue = []) :
    heapPop formKey less d = (.error "pop a empty heap", d) := by
  show gPop (dataIntf formKey less) d = _
  unfold gPop
  rw [if_pos (show (dataIntf formKey less).Len d = 0 from by
    show d.queue.length = 0
    rw [h]
    rfl)]

/-- `Peek` on an empty heap reports `peek a empty heap`. -/
theorem heapPeek_empty (d : HeapData K V) (h : d.queue = []) :
    heapPeek d = .error "peek a empty heap" := by
  unfold heapPeek dataPeek
  rw [h]
  rfl

theorem heapPeek_ok_elim {d : HeapData K V} {v : V} (h : heapPeek d = .ok v) :
    ∃ k it, d.queue[0]? = some k ∧ mapGet d.items k = some it ∧ it.value = v := by
  unfold heapPeek dataPeek at h
  split at h
  next k heq =>
    split at h
    next it heq2 =>
      injection h with h
      exact ⟨k, it, heq, heq2, h⟩
    next => exact Except.noConfusion h
  next => exact Except.noConfusion h

/-- A sequence of `Add` / `Delete` operations on the keyed heap. -/
inductive HeapOp (V : Type) where
  | add (v : V)
  | del (v : V)

def applyOp (formKey : V → K) (less : V → V → Bool) (d : HeapData K V) :
    HeapOp V → HeapData K V
  | .add v => heapAdd formKey less d v
  | .del v => (heapDelete formKey less d v).2

def runOps (formKey : V → K) (less : V → V → Bool) (ops : List (HeapOp V)) :
    HeapData K V :=
  ops.foldl (applyOp formKey less) emptyHeap

theorem applyOp_WF (formKey : V → K) {less : V → V → Bool}
    (hA : Asymm less) (hN : NegTrans less) (d : HeapData K V) (op : HeapOp V)
    (hWF : WF less d) : WF less (applyOp formKey less d op) := by
  cases op with
  | add v => exact (heapAdd_spec formKey hA hN d v hWF).1
  | del v =>
    show WF less (heapDelete formKey less d v).2
    obtain ⟨hnone, hsome⟩ := heapDelete_spec formKey hA hN d v hWF
    cases hget : mapGet d.items (formKey v) with
    | none => rw [hnone hget]; exact hWF
    | some it =>
      obtain ⟨d2, heq, hWF2, _⟩ := hsome it hget
      rw [heq]
      exact hWF2

theorem runOps_WF (formKey : V → K) {less : V → V → Bool}
    (hA : Asymm less) (hN : NegTrans less) (ops : List (HeapOp V)) :
    WF less (runOps formKey less ops) := by
  have haux : ∀ (l : List (HeapOp V)) (d : HeapData K V), WF less d →
      WF less (l.foldl (applyOp formKey less) d) := by
    intro l
    induction l with
    | nil => exact fun d h => h
    | cons op t ih =>
      intro d h
      exact ih _ (applyOp_WF formKey hA hN d op h)
  exact haux ops emptyHeap (WF_emptyHeap less)

/-! ### The concurrent heap computes the same results

`concurrentData` differs from `data` only in its bounds guards and explicit
`ok` checks, which coincide with the modelled panic branches; hence the
generic algorithms produce identical states and the `currentHeap` methods
equal the `Heap` methods. -/

theorem cLess_eq_dataLess (less : V → V → Bool) (d : HeapData K V) (i j : Nat) :
    cLess less d i j = dataLess less d i j := by
  unfold cLess dataLess
  by_cases h1 : d.queue.length ≤ i ∨ d.queue.length ≤ j
  · rw [if_pos h1]
    by_cases h2 : d.queue.length < i ∨ d.queue.length < j
    · rw [if_pos h2]
    · rw [if_neg h2]
      rcases h1 with h | h
      · rw [List.getElem?_eq_none h]
      · rw [List.getElem?_eq_none h]
        cases d.queue[i]? <;> rfl
  · rw [if_neg h1, if_neg (by omega)]

theorem cSwap_eq_dataSwap (d : HeapData K V) (i j : Nat) :
    cSwap d i j = dataSwap d i j := by
  unfold cSwap dataSwap
  by_cases h1 : d.queue.length ≤ i ∨ d.queue.length ≤ j
  · rw [if_pos h1]
    rcases h1 with h | h
    · rw [List.getElem?_eq_none h]
    · rw [List.getElem?_eq_none h]
      cases d.queue[i]? <;> rfl
  · rw [if_neg h1]

theorem cPop_eq_dataPop (d : HeapData K V) (h : d.queue.length ≠ 0) :
    cPop d = dataPop d := by
  unfold cPop dataPop
  rw [if_neg h]

theorem cIntf_heapifyUpLoop (formKey : V → K) (less : V → V → Bool)
    (d : HeapData K V) (i : Nat) :
    heapifyUpLoop (cIntf formKey less) d i
      = heapifyUpLoop (dataIntf formKey less) d i := by
  conv_lhs => rw [heapifyUpLoop]
  conv_rhs => rw [heapifyUpLoop]
  rw [show (cIntf formKey less).Less d i ((i - 1) / 2)
    = dataLess less d i ((i - 1) / 2) from cLess_eq_dataLess less d i ((i - 1) / 2)]
  rw [show (dataIntf formKey less).Less d i ((i - 1) / 2)
    = dataLess less d i ((i - 1) / 2) from rfl]
  by_cases hstop : (i - 1) / 2 = i ∨ dataLess less d i ((i - 1) / 2) = false
  · rw [if_pos hstop, if_pos hstop]
  · rw [if_neg hstop, if_neg hstop]
    rw [show (cIntf formKey less).Swap d ((i - 1) / 2) i
      = dataSwap d ((i - 1) / 2) i from cSwap_eq_dataSwap d ((i - 1) / 2) i]
    rw [show (dataIntf formKey less).Swap d ((i - 1) / 2) i
      = dataSwap d ((i - 1) / 2) i from rfl]
    exact cIntf_heapifyUpLoop formKey less (dataSwap d ((i - 1) / 2) i) ((i - 1) / 2)
termination_by i
decreasing_by
  push_neg at hstop
  omega

theorem cIntf_heapifyDownLoop (formKey : V → K) (less : V → V → Bool)
    (d : HeapData K V) (i n : Nat) :
    heapifyDownLoop (cIntf formKey less) d i n
      = heapifyDownLoop (dataIntf formKey less) d i n := by
  conv_lhs => rw [heapifyDownLoop]
  conv_rhs => rw [heapifyDownLoop]
  have hdm : downMin (cIntf formKey less) d i n
      = downMin (dataIntf formKey less) d i n := by
    unfold downMin
    rw [show (cIntf formKey less).Less d (2 * i + 1 + 1) (2 * i + 1)
      = dataLess less d (2 * i + 1 + 1) (2 * i + 1) from cLess_eq_dataLess less d _ _]
    rfl
  by_cases h1 : n ≤ 2 * i + 1
  · rw [if_pos h1, if_pos h1]
  · rw [if_neg h1, if_neg h1, hdm]
    rw [show (cIntf formKey less).Less d (downMin (dataIntf formKey less) d i n) i
      = dataLess less d (downMin (dataIntf formKey less) d i n) i from
      cLess_eq_dataLess less d _ _]
    rw [show (dataIntf formKey less).Less d (downMin (dataIntf formKey less) d i n) i
      = dataLess less d (downMin (dataIntf formKey less) d i n) i from rfl]
    by_cases h2 : dataLess less d (downMin (dataIntf formKey less) d i n) i = false
    · rw [if_pos h2, if_pos h2]
    · rw [if_neg h2, if_neg h2]
      rw [show (cIntf formKey less).Swap d i (downMin (dataIntf formKey less) d i n)
        = dataSwap d i (downMin (dataIntf formKey less) d i n) from
        cSwap_eq_dataSwap d _ _]
      rw [show (dataIntf formKey less).Swap d i (downMin (dataIntf formKey less) d i n)
        = dataSwap d i (downMin (dataIntf formKey less) d i n) from rfl]
      exact cIntf_heapifyDownLoop formKey less _ _ n
termination_by n - i
decreasing_by
  unfold downMin
  split <;> omega

theorem heapifyDownLoop_length (formKey : V → K) (less : V → V → Bool)
    (d : HeapData K V) (i n : Nat) :
    (heapifyDownLoop (dataIntf formKey less) d i n).1.queue.length
      = d.queue.length := by
  rw [heapifyDownLoop]
  by_cases h1 : n ≤ 2 * i + 1
  · rw [if_pos h1]
  · rw [if_neg h1]
    by_cases h2 : (dataIntf formKey less).Less d
        (downMin (dataIntf formKey less) d i n) i = false
    · rw [if_pos h2]
    · rw [if_neg h2]
      rw [heapifyDownLoop_length formKey less _ _ n]
      exact dataSwap_length d i _
termination_by n - i
decreasing_by
  unfold downMin
  split <;> omega

theorem heapifyUpLoop_length (formKey : V → K) (less : V → V → Bool)
    (d : HeapData K V) (i : Nat) :
    (heapifyUpLoop (dataIntf formKey less) d i).queue.length = d.queue.length := by
  rw [heapifyUpLoop]
  by_cases hstop : (i - 1) / 2 = i ∨
      (dataIntf formKey less).Less d i ((i - 1) / 2) = false
  · rw [if_pos hstop]
  · rw [if_neg hstop]
    rw [heapifyUpLoop_length formKey less _ ((i - 1) / 2)]
    exact dataSwap_length d _ i
termination_by i
decreasing_by
  push_neg at hstop
  omega

theorem gFix_c_eq (formKey : V → K) (less : V → V → Bool) (d : HeapData K V) (i : Nat) :
    gFix (cIntf formKey less) d i = gFix (dataIntf formKey less) d i := by
  unfold gFix heapifyDown
  rw [show (cIntf formKey less).Len d = d.queue.length from rfl,
    show (dataIntf formKey less).Len d = d.queue.length from rfl,
    cIntf_heapifyDownLoop formKey less d i d.queue.length]
  by_cases hb : i < (heapifyDownLoop (dataIntf formKey less) d i d.queue.length).2
  · rw [if_pos (by simpa using hb), if_pos (by simpa using hb)]
  · rw [if_neg (by simpa using hb), if_neg (by simpa using hb)]
    unfold heapifyUp
    rw [cIntf_heapifyUpLoop]

theorem gPush_c_eq (formKey : V → K) (less : V → V → Bool) (d : HeapData K V) (v : V) :
    gPush (cIntf formKey less) d v = gPush (dataIntf formKey less) d v := by
  show heapifyUpLoop (cIntf formKey less) (dataPush formKey d v)
      ((dataPush formKey d v).queue.length - 1)
    = heapifyUpLoop (dataIntf formKey less) (dataPush formKey d v)
      ((dataPush formKey d v).queue.length - 1)
  exact cIntf_heapifyUpLoop formKey less _ _

theorem gPop_c_eq (formKey : V → K) (less : V → V → Bool) (d : HeapData K V) :
    gPop (cIntf formKey less) d = gPop (dataIntf formKey less) d := by
  unfold gPop heapifyDown
  by_cases h0 : d.queue.length = 0
  · rw [if_pos (show (cIntf formKey less).Len d = 0 from h0),
      if_pos (show (dataIntf formKey less).Len d = 0 from h0)]
  · rw [if_neg (show ¬((cIntf formKey less).Len d = 0) from h0),
      if_neg (show ¬((dataIntf formKey less).Len d = 0) from h0)]
    show cPop (heapifyDownLoop (cIntf formKey less)
        (cSwap d 0 (d.queue.length - 1)) 0 (d.queue.length - 1)).1
      = dataPop (heapifyDownLoop (dataIntf formKey less)
        (dataSwap d 0 (d.queue.length - 1)) 0 (d.queue.length - 1)).1
    rw [cSwap_eq_dataSwap d 0 (d.queue.length - 1),
      cIntf_heapifyDownLoop formKey less _ 0 (d.queue.length - 1)]
    apply cPop_eq_dataPop
    rw [heapifyDownLoop_length formKey less _ 0 (d.queue.length - 1),
      dataSwap_length]
    exact h0

theorem gRemove_c_eq (formKey : V → K) (less : V → V → Bool)
    (d : HeapData K V) (i : Nat) :
    gRemove (cIntf formKey less) d i = gRemove (dataIntf formKey less) d i := by
  unfold gRemove heapifyDown
  by_cases h0 : d.queue.length = 0
  · rw [if_pos (show (cIntf formKey less).Len d = 0 from h0),
      if_pos (show (dataIntf formKey less).Len d = 0 from h0)]
  · rw [if_neg (show ¬((cIntf formKey less).Len d = 0) from h0),
      if_neg (show ¬((dataIntf formKey less).Len d = 0) from h0)]
    by_cases hni : d.queue.length - 1 ≠ i
    · rw [if_pos (show (cIntf formKey less).Len d - 1 ≠ i from hni),
        if_pos (show (dataIntf formKey less).Len d - 1 ≠ i from hni)]
      have hlen2 : (heapifyDownLoop (dataIntf formKey less)
          (dataSwap d i (d.queue.length - 1)) i (d.queue.length - 1)).1.queue.length
          ≠ 0 := by
        rw [heapifyDownLoop_length formKey less _ i (d.queue.length - 1),
          dataSwap_length]
        exact h0
      show cPop (if (heapifyDown (cIntf formKey less)
            (cSwap d i (d.queue.length - 1)) i (d.queue.length - 1)).2 = true then
          (heapifyDown (cIntf formKey less)
            (cSwap d i (d.queue.length - 1)) i (d.queue.length - 1)).1
        else heapifyUp (cIntf formKey less)
          (heapifyDown (cIntf formKey less)
            (cSwap d i (d.queue.length - 1)) i (d.queue.length - 1)).1 i)
        = dataPop (if (heapifyDown (dataIntf formKey less)
            (dataSwap d i (d.queue.length - 1)) i (d.queue.length - 1)).2 = true then
          (heapifyDown (dataIntf formKey less)
            (dataSwap d i (d.queue.length - 1)) i (d.queue.length - 1)).1
        else heapifyUp (dataIntf formKey less)
          (heapifyDown (dataIntf formKey less)
            (dataSwap d i (d.queue.length - 1)) i (d.queue.length - 1)).1 i)
      unfold heapifyDown heapifyUp
      rw [cSwap_eq_dataSwap d i (d.queue.length - 1),
        cIntf_heapifyDownLoop formKey less _ i (d.queue.length - 1)]
      by_cases hb : i < (heapifyDownLoop (dataIntf formKey less)
          (dataSwap d i (d.queue.length - 1)) i (d.queue.length - 1)).2
      · rw [if_pos (by simpa using hb), if_pos (by simpa using hb)]
        exact cPop_eq_dataPop _ hlen2
      · rw [if_neg (by simpa using hb), if_neg (by simpa using hb)]
        rw [cIntf_heapifyUpLoop]
        apply cPop_eq_dataPop
        rw [heapifyUpLoop_length]
        exact hlen2
    · rw [if_neg (show ¬((cIntf formKey less).Len d - 1 ≠ i) from hni),
        if_neg (show ¬((dataIntf formKey less).Len d - 1 ≠ i) from hni)]
      show cPop d = dataPop d
      exact cPop_eq_dataPop d h0

/-- `currentHeap.Add` computes the same state as `Heap.Add`. -/
theorem cHeapAdd_eq (formKey : V → K) (less : V → V → Bool)
    (d : HeapData K V) (v : V) :
    cHeapAdd formKey less d v = heapAdd formKey less d v := by
  unfold cHeapAdd heapAdd
  cases hget : mapGet d.items (formKey v) with
  | some it => simp only [hget, gFix_c_eq]
  | none => simp only [hget, gPush_c_eq]

/-- `currentHeap.Delete` computes the same result as `Heap.Delete`. -/
theorem cHeapDelete_eq (formKey : V → K) (less : V → V → Bool)
    (d : HeapData K V) (v : V) :
    cHeapDelete formKey less d v = heapDelete formKey less d v := by
  unfold cHeapDelete heapDelete
  cases hget : mapGet d.items (formKey v) with
  | some it => simp only [hget, gRemove_c_eq]
  | none => simp only [hget]

/-- `currentHeap.Pop` computes the same result as `Heap.Pop`. -/
theorem cHeapPop_eq (formKey : V → K) (less : V → V → Bool) (d : HeapData K V) :
    cHeapPop formKey less d = heapPop formKey less d :=
  gPop_c_eq formKey less d

theorem cHeapGet_eq (formKey : V → K) (d : HeapData K V) (v : V) :
    cHeapGet formKey d v = heapGet formKey d v := rfl

/-! ### Where the generic algorithms call `Less`

For the bounds-safety claim the index pairs at which the sift loops invoke
`h.Less` are collected, in evaluation order and with the source's
short-circuiting: `heapifyUp` tests `Less(i, parent)` once per iteration
unless `parent == i` stops it first; `heapifyDown` tests
`Less(right, left)` when the right child exists, then `Less(minimum, i)`. -/

def heapifyUpCalls (h : HeapIntf K V) (d : HeapData K V) (i : Nat) :
    List (Nat × Nat) :=
  if (i - 1) / 2 = i then []
  else if h.Less d i ((i - 1) / 2) = false then [(i, (i - 1) / 2)]
  else (i, (i - 1) / 2) :: heapifyUpCalls h (h.Swap d ((i - 1) / 2) i) ((i - 1) / 2)
termination_by i
decreasing_by omega

def heapifyDownCalls (h : HeapIntf K V) (d : HeapData K V) (i n : Nat) :
    List (Nat × Nat) :=
  if n ≤ 2 * i + 1 then []
  else
    (if 2 * i + 1 + 1 < n then [(2 * i + 1 + 1, 2 * i + 1)] else [])
      ++ (downMin h d i n, i)
      :: (if h.Less d (downMin h d i n) i = false then []
          else heapifyDownCalls h (h.Swap d i (downMin h d i n)) (downMin h d i n) n)
termination_by n - i
decreasing_by
  unfold downMin
  split <;> omega

/-- Every `Less` call of `heapifyUp` has first index at most the start index
and second index (the parent) strictly below the first. -/
theorem heapifyUpCalls_le (h : HeapIntf K V) (d : HeapData K V) (i : Nat) :
    ∀ p ∈ heapifyUpCalls h d i, p.1 ≤ i ∧ p.2 < p.1 := by
  intro p hp
  rw [heapifyUpCalls] at hp
  split at hp
  · exact absurd hp (List.not_mem_nil p)
  · rename_i h0
    split at hp
    · rw [List.mem_singleton] at hp
      subst hp
      exact ⟨Nat.le_refl i, by omega⟩
    · rcases List.mem_cons.mp hp with he | ht
      · subst he
        exact ⟨Nat.le_refl i, by omega⟩
      · have hrec := heapifyUpCalls_le h (h.Swap d ((i - 1) / 2) i) ((i - 1) / 2) p ht
        exact ⟨by omega, hrec.2⟩
termination_by i
decreasing_by omega

/-- Every `Less` call of `heapifyDown` has both indices strictly below the
bound `n`. -/
theorem heapifyDownCalls_lt (h : HeapIntf K V) (d : HeapData K V) (i n : Nat) :
    ∀ p ∈ heapifyDownCalls h d i n, p.1 < n ∧ p.2 < n := by
  intro p hp
  rw [heapifyDownCalls] at hp
  split at hp
  · exact absurd hp (List.not_mem_nil p)
  · rename_i hleft
    rw [List.mem_append] at hp
    rcases hp with hfirst | hrest
    · split at hfirst
      · rename_i hr
        rw [List.mem_singleton] at hfirst
        subst hfirst
        exact ⟨hr, by omega⟩
      · exact absurd hfirst (List.not_mem_nil p)
    · rcases List.mem_cons.mp hrest with he | ht
      · subst he
        constructor
        · show downMin h d i n < n
          unfold downMin
          split <;> omega
        · show i < n
          omega
      · split at ht
        · exact absurd ht (List.not_mem_nil p)
        · exact heapifyDownCalls_lt h (h.Swap d i (downMin h d i n))
            (downMin h d i n) n p ht
termination_by n - i
decreasing_by
  unfold downMin
  split <;> omega

/-- The `Less` calls made by the generic `Push` (sift-up after the append). -/
def pushLessCalls (h : HeapIntf K V) (d : HeapData K V) (x : V) :
    List (Nat × Nat) :=
  let d1 := h.Push d x
  heapifyUpCalls h d1 (h.Len d1 - 1)

/-- The `Less` calls made by the generic `Pop`. -/
def popLessCalls (h : HeapIntf K V) (d : HeapData K V) : List (Nat × Nat) :=
  if h.Len d = 0 then []
  else heapifyDownCalls h (h.Swap d 0 (h.Len d - 1)) 0 (h.Len d - 1)

/-- The `Less` calls made by the generic `Remove`. -/
def removeLessCalls (h : HeapIntf K V) (d : HeapData K V) (i : Nat) :
    List (Nat × Nat) :=
  if h.Len d = 0 then []
  else if h.Len d - 1 ≠ i then
    let d1 := h.Swap d i (h.Len d - 1)
    let r := heapifyDown h d1 i (h.Len d - 1)
    heapifyDownCalls h d1 i (h.Len d - 1)
      ++ (if r.2 then [] else heapifyUpCalls h r.1 i)
  else []

/-- The `Less` calls made by the generic `Fix`. -/
def fixLessCalls (h : HeapIntf K V) (d : HeapData K V) (i : Nat) :
    List (Nat × Nat) :=
  let r := heapifyDown h d i (h.Len d)
  heapifyDownCalls h d i (h.Len d) ++ (if r.2 then [] else heapifyUpCalls h r.1 i)

/-- The `Less` calls made by `Heap.Add` (`Fix` on the overwritten state when
the key is present, `Push` otherwise). -/
def addLessCalls (formKey : V → K) (less : V → V → Bool) (d : HeapData K V)
    (v : V) : List (Nat × Nat) :=
  match mapGet d.items (formKey v) with
  | some it =>
    fixLessCalls (dataIntf formKey less)
      { items := mapSet d.items (formKey v) ⟨it.index, v⟩, queue := d.queue }
      it.index
  | none => pushLessCalls (dataIntf formKey less) d v

/-- The `Less` calls made by `Heap.Delete` (`Remove` at the stored index when
the key is present, none otherwise). -/
def deleteLessCalls (formKey : V → K) (less : V → V → Bool) (d : HeapData K V)
    (v : V) : List (Nat × Nat) :=
  match mapGet d.items (formKey v) with
  | some it => removeLessCalls (dataIntf formKey less) d it.index
  | none => []

theorem cPeek_ok_of_dataPeek {d : HeapData K V} {v : V}
    (h : dataPeek d = .ok v) : cPeek d = .ok v := by
  obtain ⟨k, it, hk, hit, hval⟩ := heapPeek_ok_elim (show heapPeek d = .ok v from h)
  simp only [cPeek, hk, hit, hval]

/-! ## `blockQueue` (queue/block_queue.go)

`newBlockQueue` builds its heap with `heap.NewConcurrent`, so the inner heap
is the `currentHeap` over `concurrentData`, with `string` keys
(`HeapConstraint[V]` is `heap.Constraint[string, V]`).  The mutex and the
condition variable's broadcasts have no observable effect in a sequential
model and are dropped; `globalCnt` is never read. -/

structure BlockQueueSt (V : Type) where
  heap : HeapData String V
  stopping : Bool
  stopped : Bool
  deriving Repr, DecidableEq

def newBlockQueue (V : Type) : BlockQueueSt V :=
  { heap := emptyHeap, stopping := false, stopped := false }

/-- `blockQueue.Add`. -/
def bqAdd (formKey : V → String) (less : V → V → Bool)
    (q : BlockQueueSt V) (v : V) : BlockQueueSt V :=
  { q with heap := cHeapAdd formKey less q.heap v }

/-- `blockQueue.Update`: refuse while stopping, refuse an absent key, else
upsert through `heap.Add`. -/
def bqUpdate (formKey : V → String) (less : V → V → Bool)
    (q : BlockQueueSt V) (v : V) : Except String Unit × BlockQueueSt V :=
  if q.stopping then (.error "can not update an item to a closing queue", q)
  else
    match cHeapGet formKey q.heap v with
    | none => (.error "can not update an item not in queue", q)
    | some _ => (.ok (), { q with heap := cHeapAdd formKey less q.heap v })

/-- `blockQueue.Delete`. -/
def bqDelete (formKey : V → String) (less : V → V → Bool)
    (q : BlockQueueSt V) (v : V) : Except String Unit × BlockQueueSt V :=
  let r := cHeapDelete formKey less q.heap v
  (r.1, { q with heap := r.2 })

/-- `blockQueue.Get`. -/
def bqGet (formKey : V → String) (q : BlockQueueSt V) (v : V) : Option V :=
  cHeapGet formKey q.heap v

/-- `blockQueue.Len`. -/
def bqLen (q : BlockQueueSt V) : Nat := heapLen q.heap

/-- `blockQueue.Peek`. -/
def bqPeek (q : BlockQueueSt V) : Except String V := cHeapPeek q.heap

/-- `blockQueue.Shutdown`. -/
def bqShutdown (q : BlockQueueSt V) : BlockQueueSt V := { q with stopping := true }

/-- `blockQueue.IsShutdown`. -/
def bqIsShutdown (q : BlockQueueSt V) : Bool := q.stopping

/-- What one call of `BlockPop` can be observed to do. -/
inductive PopOutcome (V : Type) where
  | ok (v : V)
  | err (msg : String)
  | blocked
  deriving Repr, DecidableEq

/-- The body of `BlockPop`; one unit of fuel per pass, `goto BlockLoop`
re-enters the body.  In a sequential model `cond.Wait()` never returns, so a
pop that reaches the wait loop with an empty heap and `stopping == false`
blocks. -/
def bqBlockPopLoop (formKey : V → String) (less : V → V → Bool) :
    Nat → BlockQueueSt V → PopOutcome V × BlockQueueSt V
  | 0, q => (.blocked, q)
  | fuel + 1, q =>
    if heapLen q.heap = 0 ∧ q.stopping = false then (.blocked, q)
    else if q.stopped then (.err "pop a closed queue", q)
    else
      let q1 := if q.stopping then { q with stopped := true } else q
      let r := cHeapPop formKey less q1.heap
      match r.1 with
      | .ok v => (.ok v, { q1 with heap := r.2 })
      | .error _ => bqBlockPopLoop formKey less fuel { q1 with heap := r.2 }

/-- `blockQueue.BlockPop` (= `blockQueue.Pop`).  Two passes suffice for every
state the queue reaches: a `goto` only fires after a failed `Pop`, which
leaves `stopped = true`; the extra fuel is slack. -/
def bqBlockPop (formKey : V → String) (less : V → V → Bool)
    (q : BlockQueueSt V) : PopOutcome V × BlockQueueSt V :=
  bqBlockPopLoop formKey less (heapLen q.heap + 2) q

/-! ## `delayingQueue` (queue/delaying_queue.go)

Go's `time.Time` is modelled as an `Int` of nanoseconds; `time.Now()` becomes
an explicit `now` argument.  The timers, the stop channel and the lock are
dropped; the inbound buffered channel `waitingForAddCh` is a list. -/

/-- `waitFor`: a value wrapped with the time it becomes ready.  The `index`
field exists in the struct but nothing in queue/delaying_queue.go ever reads
it (the heap keeps its own `heapItem.index`); Go zero-initialises it. -/
structure waitFor (V : Type) where
  readyAt : Int
  value : V
  index : Int
  deriving Repr, DecidableEq

/-- `newWaitFor`: wraps an item with `readyAt = time.Now()`. -/
def newWaitFor (now : Int) (item : V) : waitFor V :=
  { readyAt := now, value := item, index := 0 }

/-- `waitConstraintConvertor.FormStoreKey`: delegate identity to the inner
value's key. -/
def waitFormKey (formKey : V → String) (w : waitFor V) : String :=
  formKey w.value

/-- `waitConstraintConvertor.Less` (queue/delaying_queue.go lines 36-38): it
delegates to the origin constraint on the *inner values* — it does not look
at `readyAt`. -/
def waitLess (less : V → V → Bool) (wi wj : waitFor V) : Bool :=
  less wi.value wj.value

/-- The comparator §4.2 of the spec describes for the waiting queue:
ascending `readyAt` (this definition follows the spec's words, to be compared
with `waitLess` from the source). -/
def specWaitLess (wi wj : waitFor V) : Bool :=
  decide (wi.readyAt < wj.readyAt)

structure DelayingQueueSt (V : Type) where
  mainQueue : BlockQueueSt V
  waitQueue : BlockQueueSt (waitFor V)
  waitingForAddCh : List (waitFor V)
  stop : Bool
  deriving Repr, DecidableEq

/-- `delayingQueue.IsShutdown`. -/
def dqIsShutdown (q : DelayingQueueSt V) : Bool := q.stop

/-- `delayingQueue.Add`: straight to the ready (main) queue. -/
def dqAdd (formKey : V → String) (less : V → V → Bool)
    (q : DelayingQueueSt V) (v : V) : DelayingQueueSt V :=
  { q with mainQueue := bqAdd formKey less q.mainQueue v }

/-- `delayingQueue.AddAfter`: no-op when shut down; `duration <= 0` goes
straight to the ready queue; otherwise the wrapped entry is sent to
`waitingForAddCh` (the `select` against the closed stop channel cannot fire
here, since `stopCh` is only closed after `stop = true`, tested above). -/
def dqAddAfter (formKey : V → String) (less : V → V → Bool) (now : Int)
    (q : DelayingQueueSt V) (item : V) (duration : Int) : DelayingQueueSt V :=
  if dqIsShutdown q then q
  else if duration ≤ 0 then
    { q with mainQueue := bqAdd formKey less q.mainQueue item }
  else
    { q with waitingForAddCh :=
        q.waitingForAddCh ++ [{ readyAt := now + duration, value := item, index := 0 }] }

/-- `delayingQueue.Update`: when the key is in the waiting queue, update it
there with a *fresh* `newWaitFor obj` (whose `readyAt` is `now`); otherwise
forward to the ready queue's `Update`. -/
def dqUpdate (formKey : V → String) (less : V → V → Bool) (now : Int)
    (q : DelayingQueueSt V) (obj : V) : Except String Unit × DelayingQueueSt V :=
  match bqGet (waitFormKey formKey) q.waitQueue (newWaitFor now obj) with
  | some _ =>
    let r := bqUpdate (waitFormKey formKey) (waitLess less) q.waitQueue
      (newWaitFor now obj)
    (r.1, { q with waitQueue := r.2 })
  | none =>
    let r := bqUpdate formKey less q.mainQueue obj
    (r.1, { q with mainQueue := r.2 })

/-- The effect of `item.value = obj`: `Get` hands back the pointer to the
stored `waitFor`, so the assignment rewrites the stored entry's payload in
place, keeping its `readyAt` and its heap position. -/
def refreshStored (d : HeapData String (waitFor V)) (key : String) (obj : V) :
    HeapData String (waitFor V) :=
  match mapGet d.items key with
  | some it =>
    { items := mapSet d.items key
        ⟨it.index,
         { readyAt := it.value.readyAt, value := obj, index := it.value.index }⟩
      queue := d.queue }
  | none => d

/-- `delayingQueue.Refresh`: when the key is in the waiting queue, overwrite
the stored entry's payload through the returned pointer (no error, no
re-heapify); otherwise forward to the ready queue's `Update`.  The lookup key
`waitFormKey formKey (newWaitFor now obj)` is `formKey obj`. -/
def dqRefresh (formKey : V → String) (less : V → V → Bool) (now : Int)
    (q : DelayingQueueSt V) (obj : V) : Except String Unit × DelayingQueueSt V :=
  match bqGet (waitFormKey formKey) q.waitQueue (newWaitFor now obj) with
  | some _ =>
    (.ok (), { q with waitQueue := { q.waitQueue with
        heap := refreshStored q.waitQueue.heap (formKey obj) obj } })
  | none =>
    let r := bqUpdate formKey less q.mainQueue obj
    (r.1, { q with mainQueue := r.2 })

/-- `delayingQueue.Delete`: try the ready queue first (deleting the item
`Get` returned), then the waiting queue; the Go error formats `obj` into the
message, elided here. -/
def dqDelete (formKey : V → String) (less : V → V → Bool) (now : Int)
    (q : DelayingQueueSt V) (obj : V) : Except String Unit × DelayingQueueSt V :=
  match bqGet formKey q.mainQueue obj with
  | some item =>
    let r := bqDelete formKey less q.mainQueue item
    (r.1, { q with mainQueue := r.2 })
  | none =>
    match bqGet (waitFormKey formKey) q.waitQueue (newWaitFor now obj) with
    | some queItem =>
      let r := bqDelete (waitFormKey formKey) (waitLess less) q.waitQueue queItem
      (r.1, { q with waitQueue := r.2 })
    | none => (.error "can not find item in delaying queue", q)

/-- `delayingQueue.Get`: the ready queue first, then the waiting queue,
unwrapping the entry's inner value. -/
def dqGet (formKey : V → String) (now : Int)
    (q : DelayingQueueSt V) (obj : V) : Option V :=
  match bqGet formKey q.mainQueue obj with
  | some item => some item
  | none =>
    match bqGet (waitFormKey formKey) q.waitQueue (newWaitFor now obj) with
    | some queItem => some queItem.value
    | none => none

/-- `delayingQueue.Len`: ready length plus waiting length. -/
def dqLen (q : DelayingQueueSt V) : Nat :=
  bqLen q.mainQueue + bqLen q.waitQueue

/-- `delayingQueue.Pop`: the ready queue's blocking pop. -/
def dqPop (formKey : V → String) (less : V → V → Bool)
    (q : DelayingQueueSt V) : PopOutcome V × DelayingQueueSt V :=
  let r := bqBlockPop formKey less q.mainQueue
  (r.1, { q with mainQueue := r.2 })

/-- `delayingQueue.Peek`: the ready queue's peek. -/
def dqPeek (q : DelayingQueueSt V) : Except String V :=
  bqPeek q.mainQueue

/-- The `Add ready entries` loop of `waitingLoop`, with fuel: peek the
waiting queue, stop when its head's `readyAt` is after `now`, else pop it and
add the inner value to the ready queue.  A `Peek` error makes Go `continue`
over the same state, hence the fuel; a `Pop` error breaks. -/
def drainReady (formKey : V → String) (less : V → V → Bool) (now : Int) :
    Nat → DelayingQueueSt V → DelayingQueueSt V
  | 0, q => q
  | fuel + 1, q =>
    if bqLen q.waitQueue = 0 then q
    else
      match bqPeek q.waitQueue with
      | .error _ => drainReady formKey less now fuel q
      | .ok entry =>
        if decide (now < entry.readyAt) then q
        else
          let r := bqBlockPop (waitFormKey formKey) (waitLess less) q.waitQueue
          match r.1 with
          | .ok item =>
            drainReady formKey less now fuel
              { q with waitQueue := r.2,
                       mainQueue := bqAdd formKey less q.mainQueue item.value }
          | _ => { q with waitQueue := r.2 }

/-! ## Helper facts shared by the claim theorems and their witnesses -/

/-- A successful `Peek` on a well-formed heap returns a minimal stored
value. -/
theorem heapPeek_min {less : V → V → Bool} (hA : Asymm less)
    (hN : NegTrans less) {d : HeapData K V} (hWF : WF less d) {v : V}
    (h : heapPeek d = .ok v) : ∀ u ∈ valsList d, less u v = false := by
  obtain ⟨hWFb, hHP⟩ := hWF
  obtain ⟨k, it, hk, hit, hval⟩ := heapPeek_ok_elim h
  have hroot : valAt d 0 = some v := by
    unfold valAt
    rw [hk]
    simp [hit, hval]
  intro u hu
  obtain ⟨p, hp⟩ := mem_valsList_elim hu
  exact heapProp_root_min hA hN hWFb hHP hroot p u hp

theorem waitLess_asymm {less : V → V → Bool} (hA : Asymm less) :
    Asymm (waitLess (V := V) less) :=
  fun a b h => hA a.value b.value h

theorem waitLess_negTrans {less : V → V → Bool} (hN : NegTrans less) :
    NegTrans (waitLess (V := V) less) :=
  fun a b c h1 h2 => hN a.value b.value c.value h1 h2

/-- A one-entry heap state is well formed for any comparator. -/
theorem WF_singleton (less : V → V → Bool) (k : K) (v : V) :
    WF less { items := [(k, ⟨0, v⟩)], queue := [k] } := by
  refine ⟨⟨List.nodup_singleton k, ?_, ?_, ?_⟩, ?_⟩
  · simpa [mapKeys] using List.nodup_singleton k
  · intro i k2 hk
    cases i with
    | zero =>
      simp at hk
      subst hk
      exact ⟨⟨0, v⟩, by simp [mapGet], rfl⟩
    | succ n => simp at hk
  · intro k2 it hk
    simp only [mapGet] at hk
    by_cases h : k = k2
    · subst h
      simp
    · rw [if_neg h] at hk
      exact Option.noConfusion hk
  · intro p c u w hedge hcn hcu hpw
    simp only [List.length_singleton] at hcn
    omega

/-- Concrete key and comparator instances for the witnesses. -/
def natKey (n : Nat) : String := toString n

def natLess (a b : Nat) : Bool := decide (a < b)

theorem natLess_asymm : Asymm natLess := by
  intro a b h
  simp only [natLess, decide_eq_true_eq] at h
  simp only [natLess, decide_eq_false_iff_not]
  omega

theorem natLess_negTrans : NegTrans natLess := by
  intro a b c h1 h2
  simp only [natLess, decide_eq_false_iff_not] at h1 h2 ⊢
  omega

/-- A constant key function: every `Nat` payload shares the key `k`. -/
def oneKey (n : Nat) : String := "k"

/-- A one-entry concrete heap used by the witnesses. -/
def dOne : HeapData String Nat := { items := [("k", ⟨0, 5⟩)], queue := ["k"] }

/-! ## The claims -/

/-- C1: for every sequence of keyed-heap `Add`/`Delete` operations from the
empty heap, the state stays well formed (the binary min-heap invariant on the
key array holds); whenever `Peek` succeeds it returns a value `v` such that
no present element `u` has `less u v`, and on a nonempty state `Pop` removes
and returns that same minimal element. -/
theorem C1_heap_invariant_peek_pop (formKey : V → K) {less : V → V → Bool}
    (hA : Asymm less) (hN : NegTrans less) (ops : List (HeapOp V)) :
    WF less (runOps formKey less ops) ∧
    (∀ v, heapPeek (runOps formKey less ops) = .ok v →
      ∀ u ∈ valsList (runOps formKey less ops), less u v = false) ∧
    ((runOps formKey less ops).queue ≠ [] →
      ∃ v d2, heapPop formKey less (runOps formKey less ops) = (.ok v, d2) ∧
        heapPeek (runOps formKey less ops) = .ok v ∧
        (∀ u ∈ valsList (runOps formKey less ops), less u v = false) ∧
        heapLen d2 = heapLen (runOps formKey less ops) - 1 ∧
        (valsList (runOps formKey less ops)).Perm (v :: valsList d2)) := by
  have hWF := runOps_WF formKey hA hN ops
  refine ⟨hWF, ?_, ?_⟩
  · intro v hv
    exact heapPeek_min hA hN hWF hv
  · intro hne
    obtain ⟨v, k0, d2, hk0, hpop, hpeek, hmin, hWF2, hlen, hperm, hrm, hfr⟩ :=
      heapPop_spec formKey hA hN _ hWF hne
    exact ⟨v, d2, hpop, hpeek, hmin, hlen, hperm⟩

theorem C1_heap_invariant_peek_pop_witness :
    WF natLess (runOps natKey natLess [HeapOp.add 5, HeapOp.add 7, HeapOp.del 5]) :=
  (C1_heap_invariant_peek_pop natKey natLess_asymm natLess_negTrans
    [HeapOp.add 5, HeapOp.add 7, HeapOp.del 5]).1

/-- C4: `Add` with an already-present key is an upsert: the length is
unchanged, `Get` on that key afterwards returns the new value, the heap stays
well formed, and every other key's stored value is untouched. -/
theorem C4_add_upsert (formKey : V → K) {less : V → V → Bool}
    (hA : Asymm less) (hN : NegTrans less) (d : HeapData K V) (v : V)
    (it : heapItem V) (hWF : WF less d)
    (hget : mapGet d.items (formKey v) = some it) :
    heapLen (heapAdd formKey less d v) = heapLen d ∧
    heapGet formKey (heapAdd formKey less d v) v = some v ∧
    WF less (heapAdd formKey less d v) ∧
    (∀ k, k ≠ formKey v →
      (mapGet (heapAdd formKey less d v).items k).map heapItem.value
        = (mapGet d.items k).map heapItem.value) := by
  obtain ⟨hWF2, hnew, hframe, _, hlen⟩ := heapAdd_spec formKey hA hN d v hWF
  exact ⟨hlen it hget, hnew, hWF2, hframe⟩

theorem C4_add_upsert_witness :
    heapLen (heapAdd oneKey natLess dOne 7) = heapLen dOne ∧
    heapGet oneKey (heapAdd oneKey natLess dOne 7) 7 = some 7 ∧
    WF natLess (heapAdd oneKey natLess dOne 7) ∧
    (∀ k, k ≠ oneKey 7 →
      (mapGet (heapAdd oneKey natLess dOne 7).items k).map heapItem.value
        = (mapGet dOne.items k).map heapItem.value) :=
  C4_add_upsert oneKey natLess_asymm natLess_negTrans dOne 7 ⟨0, 5⟩
    (WF_singleton natLess "k" 5) (by decide)

/-- C8: `Delete` with an absent key fails with `object not found` and leaves
the heap unchanged; the payload is irrelevant (any value with the same key
deletes the same entry); with a present key it removes exactly that entry:
length shrinks by one, the key is gone, and every other key's stored value is
untouched. -/
theorem C8_delete_key_error (formKey : V → K) {less : V → V → Bool}
    (hA : Asymm less) (hN : NegTrans less) (d : HeapData K V) (v : V)
    (hWF : WF less d) :
    (mapGet d.items (formKey v) = none →
      heapDelete formKey less d v = (.error "object not found", d)) ∧
    (∀ v2, formKey v2 = formKey v →
      heapDelete formKey less d v2 = heapDelete formKey less d v) ∧
    (∀ it, mapGet d.items (formKey v) = some it →
      ∃ d2, heapDelete formKey less d v = (.ok (), d2) ∧
        WF less d2 ∧
        heapLen d2 = heapLen d - 1 ∧
        mapGet d2.items (formKey v) = none ∧
        (∀ k, k ≠ formKey v → (mapGet d2.items k).map heapItem.value
          = (mapGet d.items k).map heapItem.value) ∧
        (valsList d).Perm (it.value :: valsList d2)) := by
  obtain ⟨hnone, hsome⟩ := heapDelete_spec formKey hA hN d v hWF
  exact ⟨hnone, fun v2 h => heapDelete_key_only formKey less d v2 v h, hsome⟩

theorem C8_delete_key_error_witness :
    heapDelete oneKey natLess dOne 9 = heapDelete oneKey natLess dOne 5 :=
  (C8_delete_key_error oneKey natLess_asymm natLess_negTrans dOne 5
    (WF_singleton natLess "k" 5)).2.1 9 rfl

/-- C9: `Pop` and `Peek` on an empty heap return the Go error values rather
than panicking; on a well-formed nonempty heap `Pop` succeeds (`data.Pop` is
reached only behind the generic length check, so its unchecked
`queue[len-1]` access is in bounds); and every index pair at which the
operations invoke `data.Less` — whose bounds guard uses `<` where `≤` was
needed — is strictly below the queue length. -/
theorem C9_no_panic_bounds (formKey : V → K) {less : V → V → Bool}
    (hA : Asymm less) (hN : NegTrans less) (d : HeapData K V) (v : V)
    (hWF : WF less d) :
    (d.queue = [] → heapPop formKey less d = (.error "pop a empty heap", d) ∧
      heapPeek d = .error "peek a empty heap") ∧
    (d.queue ≠ [] → ∃ w d2, heapPop formKey less d = (.ok w, d2)) ∧
    (∀ p ∈ popLessCalls (dataIntf formKey less) d,
      p.1 < heapLen d ∧ p.2 < heapLen d) ∧
    (∀ p ∈ addLessCalls formKey less d v,
      p.1 < heapLen (heapAdd formKey less d v)
        ∧ p.2 < heapLen (heapAdd formKey less d v)) ∧
    (∀ p ∈ deleteLessCalls formKey less d v,
      p.1 < heapLen d ∧ p.2 < heapLen d) := by
  have hL : (dataIntf formKey less).Len d = d.queue.length := rfl
  refine ⟨?_, ?_, ?_, ?_, ?_⟩
  · intro h
    exact ⟨heapPop_empty formKey less d h, heapPeek_empty d h⟩
  · intro hne
    obtain ⟨w, k0, d2, hk0, hpop, _⟩ := heapPop_spec formKey hA hN d hWF hne
    exact ⟨w, d2, hpop⟩
  · intro p hp
    unfold popLessCalls at hp
    split at hp
    · exact absurd hp (List.not_mem_nil p)
    · rename_i h0
      have hb := heapifyDownCalls_lt (dataIntf formKey less) _ 0
        ((dataIntf formKey less).Len d - 1) p hp
      rw [hL] at hb h0
      constructor
      · show p.1 < d.queue.length
        omega
      · show p.2 < d.queue.length
        omega
  · intro p hp
    unfold addLessCalls at hp
    split at hp
    · rename_i it hget
      have hrev := hWF.1.rev hget
      have hi_lt : it.index < d.queue.length := (List.getElem?_eq_some_iff.mp hrev).1
      have hlen : heapLen (heapAdd formKey less d v) = heapLen d :=
        (heapAdd_spec formKey hA hN d v hWF).2.2.2.2 it hget
      rw [hlen]
      simp only [fixLessCalls, List.mem_append] at hp
      rcases hp with hdown | hup
      · have hb := heapifyDownCalls_lt (dataIntf formKey less) _ it.index _ p hdown
        constructor
        · show p.1 < d.queue.length
          exact hb.1
        · show p.2 < d.queue.length
          exact hb.2
      · split at hup
        · exact absurd hup (List.not_mem_nil p)
        · have hb := heapifyUpCalls_le (dataIntf formKey less) _ it.index p hup
          constructor
          · show p.1 < d.queue.length
            omega
          · show p.2 < d.queue.length
            omega
    · rename_i hget
      have hlen : heapLen (heapAdd formKey less d v) = heapLen d + 1 :=
        (heapAdd_spec formKey hA hN d v hWF).2.2.2.1 hget
      rw [hlen]
      simp only [pushLessCalls] at hp
      have hpushlen : (dataIntf formKey less).Len
          ((dataIntf formKey less).Push d v) = d.queue.length + 1 := by
        show (dataPush formKey d v).queue.length = d.queue.length + 1
        show (d.queue ++ [formKey v]).length = d.queue.length + 1
        rw [List.length_append]
        rfl
      rw [hpushlen] at hp
      have hb := heapifyUpCalls_le (dataIntf formKey less) _ (d.queue.length + 1 - 1) p hp
      constructor
      · show p.1 < d.queue.length + 1
        omega
      · show p.2 < d.queue.length + 1
        omega
  · intro p hp
    unfold deleteLessCalls at hp
    split at hp
    · rename_i it hget
      have hrev := hWF.1.rev hget
      have hi_lt : it.index < d.queue.length := (List.getElem?_eq_some_iff.mp hrev).1
      simp only [removeLessCalls] at hp
      split at hp
      · exact absurd hp (List.not_mem_nil p)
      · split at hp
        · rw [List.mem_append] at hp
          rcases hp with hdown | hup
          · have hb := heapifyDownCalls_lt (dataIntf formKey less) _ it.index
              ((dataIntf formKey less).Len d - 1) p hdown
            rw [hL] at hb
            constructor
            · show p.1 < d.queue.length
              omega
            · show p.2 < d.queue.length
              omega
          · split at hup
            · exact absurd hup (List.not_mem_nil p)
            · have hb := heapifyUpCalls_le (dataIntf formKey less) _ it.index p hup
              constructor
              · show p.1 < d.queue.length
                omega
              · show p.2 < d.queue.length
                omega
        · exact absurd hp (List.not_mem_nil p)
    · exact absurd hp (List.not_mem_nil p)

theorem C9_no_panic_bounds_witness :
    heapPop oneKey natLess emptyHeap = (.error "pop a empty heap", emptyHeap) ∧
    heapPeek (emptyHeap (K := String) (V := Nat)) = .error "peek a empty heap" :=
  (C9_no_panic_bounds oneKey natLess_asymm natLess_negTrans emptyHeap 7
    (WF_emptyHeap natLess)).1 rfl

/-- One unfolding of the `BlockPop` body (the lets zeta-reduced). -/
theorem bqBlockPopLoop_succ (formKey : V → String) (less : V → V → Bool)
    (fuel : Nat) (q : BlockQueueSt V) :
    bqBlockPopLoop formKey less (fuel + 1) q
      = if heapLen q.heap = 0 ∧ q.stopping = false then (.blocked, q)
        else if q.stopped then (.err "pop a closed queue", q)
        else
          match (cHeapPop formKey less
              (if q.stopping then { q with stopped := true } else q).heap).1 with
          | .ok v => (.ok v,
              { (if q.stopping then { q with stopped := true } else q) with
                heap := (cHeapPop formKey less
                  (if q.stopping then { q with stopped := true } else q).heap).2 })
          | .error _ => bqBlockPopLoop formKey less fuel
              { (if q.stopping then { q with stopped := true } else q) with
                heap := (cHeapPop formKey less
                  (if q.stopping then { q with stopped := true } else q).heap).2 } :=
  rfl

/-- Once `stopping` and `stopped` are both set, any fueled `BlockPop` pass
reports the closed-queue error and changes nothing. -/
theorem bqBlockPopLoop_closed (formKey : V → String) (less : V → V → Bool)
    (fuel : Nat) (q : BlockQueueSt V) (hstopping : q.stopping = true)
    (hstopped : q.stopped = true) :
    bqBlockPopLoop formKey less (fuel + 1) q = (.err "pop a closed queue", q) := by
  rw [bqBlockPopLoop_succ]
  rw [if_neg (by simp [hstopping])]
  rw [if_pos hstopped]

/-- C2: with `stopping` set by `Shutdown`, the first `BlockPop` that observes
it sets `stopped`; if the heap is nonempty it still returns one item (the
root `Peek` reports), if empty it already reports the closed-queue error; and
once `stopped` is set every `BlockPop` returns `pop a closed queue` no matter
how many items remain in the heap. -/
theorem C2_shutdown_pop (formKey : V → String) {less : V → V → Bool}
    (hA : Asymm less) (hN : NegTrans less) (q : BlockQueueSt V)
    (hWF : WF less q.heap) (hstopping : q.stopping = true) :
    (q.stopped = false → q.heap.queue ≠ [] →
      ∃ v q2, bqBlockPop formKey less q = (.ok v, q2) ∧
        q2.stopped = true ∧ bqPeek q = .ok v) ∧
    (q.stopped = false → q.heap.queue = [] →
      bqBlockPop formKey less q
        = (.err "pop a closed queue", { q with stopped := true })) ∧
    (q.stopped = true →
      bqBlockPop formKey less q = (.err "pop a closed queue", q)) := by
  refine ⟨?_, ?_, ?_⟩
  · intro hstopped hne
    obtain ⟨v, k0, d2, hk0, hpop, hpeek, hmin, hWF2, hlen, hperm, hrm, hfr⟩ :=
      heapPop_spec formKey hA hN q.heap hWF hne
    have hcpop : cHeapPop formKey less q.heap = (.ok v, d2) := by
      rw [cHeapPop_eq]
      exact hpop
    refine ⟨v, { q with heap := d2, stopped := true }, ?_, rfl, ?_⟩
    · show bqBlockPopLoop formKey less (heapLen q.heap + 1 + 1) q = _
      rw [bqBlockPopLoop_succ]
      rw [if_neg (by simp [hstopping])]
      rw [if_neg (by simp [hstopped])]
      rw [if_pos hstopping]
      have hh : ({ q with stopped := true } : BlockQueueSt V).heap = q.heap := rfl
      rw [hh, hcpop]
    · show cHeapPeek q.heap = .ok v
      exact cPeek_ok_of_dataPeek hpeek
  · intro hstopped hq
    have hcpop : cHeapPop formKey less q.heap = (.error "pop a empty heap", q.heap) := by
      rw [cHeapPop_eq]
      exact heapPop_empty formKey less q.heap hq
    show bqBlockPopLoop formKey less (heapLen q.heap + 1 + 1) q = _
    rw [bqBlockPopLoop_succ]
    rw [if_neg (by simp [hstopping])]
    rw [if_neg (by simp [hstopped])]
    rw [if_pos hstopping]
    have hh : ({ q with stopped := true } : BlockQueueSt V).heap = q.heap := rfl
    rw [hh, hcpop]
    show bqBlockPopLoop formKey less (heapLen q.heap + 1)
        { q with stopped := true, heap := q.heap } = _
    exact bqBlockPopLoop_closed formKey less (heapLen q.heap) _ hstopping rfl
  · intro hstopped
    exact bqBlockPopLoop_closed formKey less (heapLen q.heap + 1) q hstopping hstopped

theorem C2_shutdown_pop_witness :
    bqBlockPop oneKey natLess ⟨dOne, true, true⟩
      = (.err "pop a closed queue", ⟨dOne, true, true⟩) :=
  (C2_shutdown_pop oneKey natLess_asymm natLess_negTrans ⟨dOne, true, true⟩
    (WF_singleton natLess "k" 5) rfl).2.2 rfl

/-- C6: `blockQueue.Update` fails with the closing-queue error whenever
`stopping` is set (ShuttingDown or Closed) and with the not-in-queue error
when the key is absent from the heap, in both cases leaving the whole state —
heap included — unchanged; otherwise it upserts the value through
`heap.Add`. -/
theorem C6_update_errors (formKey : V → String) {less : V → V → Bool}
    (hA : Asymm less) (hN : NegTrans less) (q : BlockQueueSt V) (v : V)
    (hWF : WF less q.heap) :
    (q.stopping = true →
      bqUpdate formKey less q v
        = (.error "can not update an item to a closing queue", q)) ∧
    (q.stopping = false → bqGet formKey q v = none →
      bqUpdate formKey less q v
        = (.error "can not update an item not in queue", q)) ∧
    (q.stopping = false → ∀ u, bqGet formKey q v = some u →
      bqUpdate formKey less q v
        = (.ok (), { q with heap := cHeapAdd formKey less q.heap v }) ∧
      WF less (cHeapAdd formKey less q.heap v) ∧
      heapLen (cHeapAdd formKey less q.heap v) = heapLen q.heap ∧
      (mapGet (cHeapAdd formKey less q.heap v).items (formKey v)).map
        heapItem.value = some v) := by
  refine ⟨?_, ?_, ?_⟩
  · intro h
    unfold bqUpdate
    rw [if_pos h]
  · intro h hget
    unfold bqUpdate
    rw [if_neg (by simp [h])]
    have hg : cHeapGet formKey q.heap v = none := hget
    simp only [hg]
  · intro h u hget
    have hg : cHeapGet formKey q.heap v = some u := hget
    obtain ⟨it, hit, hval⟩ := Option.map_eq_some'.mp hg
    have hspec := heapAdd_spec formKey hA hN q.heap v hWF
    refine ⟨?_, ?_, ?_, ?_⟩
    · unfold bqUpdate
      rw [if_neg (by simp [h])]
      simp only [hg]
    · rw [cHeapAdd_eq]
      exact hspec.1
    · rw [cHeapAdd_eq]
      exact hspec.2.2.2.2 it hit
    · rw [cHeapAdd_eq]
      exact hspec.2.1

theorem C6_update_errors_witness :
    bqUpdate oneKey natLess ⟨dOne, false, false⟩ 7
      = (.ok (), { (⟨dOne, false, false⟩ : BlockQueueSt Nat) with
          heap := cHeapAdd oneKey natLess dOne 7 }) :=
  ((C6_update_errors oneKey natLess_asymm natLess_negTrans ⟨dOne, false, false⟩ 7
    (WF_singleton natLess "k" 5)).2.2 rfl 5 (by decide)).1

/-- Concrete waiting entries for C3: `wfA` wraps value 1 and is ready at 100,
`wfB` wraps value 2 and is ready at 10. -/
def wfA : waitFor Nat := { readyAt := 100, value := 1, index := 0 }

def wfB : waitFor Nat := { readyAt := 10, value := 2, index := 0 }

/-- A two-entry waiting heap with `wfA` at the root: the source comparator
orders by the wrapped values (1 before 2), so this is a well-formed heap for
it even though `wfB` is ready first. -/
def dC3 : HeapData String (waitFor Nat) :=
  { items := [("1", ⟨0, wfA⟩), ("2", ⟨1, wfB⟩)], queue := ["1", "2"] }

def qC3 : DelayingQueueSt Nat :=
  { mainQueue := newBlockQueue Nat
    waitQueue := { heap := dC3, stopping := false, stopped := false }
    waitingForAddCh := []
    stop := false }

/-- C3 (refuted — code bug): `waitConstraintConvertor.Less` delegates to the
origin constraint on the wrapped inner values and never reads `readyAt`,
diverging from the readyAt-ascending order the spec describes
(`specWaitLess`).  Consequently, with `wfA` (ready at 100, value 1) at the
root above `wfB` (ready at 10, value 2), the drain loop run at `now = 50`
stops immediately: the overdue entry `wfB` stays in the waiting queue and
nothing moves to the ready queue. -/
theorem C3_wait_order_eval :
    waitLess natLess wfA wfB = true ∧
    specWaitLess wfA wfB = false ∧
    wfB.readyAt < wfA.readyAt ∧
    bqPeek qC3.waitQueue = .ok wfA ∧
    wfB.readyAt ≤ 50 ∧
    bqGet (waitFormKey natKey) qC3.waitQueue wfB = some wfB ∧
    drainReady natKey natLess 50 4 qC3 = qC3 ∧
    bqLen qC3.mainQueue = 0 := by
  refine ⟨rfl, rfl, by decide, rfl, by decide, by decide, ?_, rfl⟩
  rfl

/-- A one-entry waiting heap whose entry (key `k`, payload 3) is scheduled at
time 5, inside an otherwise empty delaying queue. -/
def dWOne : HeapData String (waitFor Nat) :=
  { items := [("k", ⟨0, { readyAt := 5, value := 3, index := 0 }⟩)]
    queue := ["k"] }

def qW : DelayingQueueSt Nat :=
  { mainQueue := newBlockQueue Nat
    waitQueue := { heap := dWOne, stopping := false, stopped := false }
    waitingForAddCh := []
    stop := false }

/-- C5 counterexample: the waiting entry for key `k` is scheduled at 5, yet
after `Update` at `now = 100` the stored entry's `readyAt` is 100 — `Update`
does not refresh the value "without changing its scheduled ready time", it
re-stamps the entry with the current time. -/
theorem C5_counterexample_readyAt_changed :
    bqGet (waitFormKey oneKey) qW.waitQueue (newWaitFor 100 3)
      = some { readyAt := 5, value := 3, index := 0 } ∧
    (mapGet (dqUpdate oneKey natLess 100 qW 3).2.waitQueue.heap.items "k").map
      (fun it => it.value.readyAt) = some 100 := by
  refine ⟨by decide, ?_⟩
  have hval := (heapAdd_spec (waitFormKey oneKey) (waitLess_asymm natLess_asymm)
    (waitLess_negTrans natLess_negTrans) dWOne (newWaitFor 100 3)
    (WF_singleton (waitLess natLess) "k" ⟨5, 3, 0⟩)).2.1
  have hstate : (dqUpdate oneKey natLess 100 qW 3).2.waitQueue.heap
      = cHeapAdd (waitFormKey oneKey) (waitLess natLess) dWOne
          (newWaitFor 100 3) := rfl
  rw [hstate, cHeapAdd_eq]
  obtain ⟨it, hit, hv⟩ := Option.map_eq_some'.mp hval
  show (mapGet (heapAdd (waitFormKey oneKey) (waitLess natLess) dWOne
      (newWaitFor 100 3)).items (waitFormKey oneKey (newWaitFor 100 3))).map
    (fun it => it.value.readyAt) = some 100
  rw [hit]
  simp [hv, newWaitFor]

/-- C5 (amended): when an entry with the key is in the waiting queue,
`Update` replaces it there with a fresh `newWaitFor obj` whose `readyAt` is
the current time — the scheduled ready time is not preserved — while
`Refresh` overwrites only the stored payload, keeping `readyAt` and the heap
order; when no such entry exists, both forward to the ready queue's
`Update`. -/
theorem C5_update_refresh (formKey : V → String) {less : V → V → Bool}
    (hA : Asymm less) (hN : NegTrans less) (now : Int)
    (q : DelayingQueueSt V) (obj : V)
    (hWF : WF (waitLess less) q.waitQueue.heap)
    (hstopping : q.waitQueue.stopping = false) :
    (∀ w, bqGet (waitFormKey formKey) q.waitQueue (newWaitFor now obj) = some w →
      (dqUpdate formKey less now q obj).1 = .ok () ∧
      (dqUpdate formKey less now q obj).2.mainQueue = q.mainQueue ∧
      (dqUpdate formKey less now q obj).2.waitQueue.heap
        = cHeapAdd (waitFormKey formKey) (waitLess less) q.waitQueue.heap
            (newWaitFor now obj) ∧
      (mapGet (dqUpdate formKey less now q obj).2.waitQueue.heap.items
          (formKey obj)).map (fun it => it.value.readyAt) = some now) ∧
    (∀ w, bqGet (waitFormKey formKey) q.waitQueue (newWaitFor now obj) = some w →
      (dqRefresh formKey less now q obj).1 = .ok () ∧
      (dqRefresh formKey less now q obj).2.mainQueue = q.mainQueue ∧
      (dqRefresh formKey less now q obj).2.waitQueue.heap.queue
        = q.waitQueue.heap.queue ∧
      (mapGet (dqRefresh formKey less now q obj).2.waitQueue.heap.items
          (formKey obj)).map (fun it => it.value)
        = some { readyAt := w.readyAt, value := obj, index := w.index }) ∧
    (bqGet (waitFormKey formKey) q.waitQueue (newWaitFor now obj) = none →
      dqUpdate formKey less now q obj
        = ((bqUpdate formKey less q.mainQueue obj).1,
           { q with mainQueue := (bqUpdate formKey less q.mainQueue obj).2 }) ∧
      dqRefresh formKey less now q obj
        = ((bqUpdate formKey less q.mainQueue obj).1,
           { q with mainQueue := (bqUpdate formKey less q.mainQueue obj).2 })) := by
  refine ⟨?_, ?_, ?_⟩
  · intro w hw
    have hg : cHeapGet (waitFormKey formKey) q.waitQueue.heap (newWaitFor now obj)
        = some w := hw
    have hbu : bqUpdate (waitFormKey formKey) (waitLess less) q.waitQueue
        (newWaitFor now obj)
        = (.ok (), { q.waitQueue with
            heap := cHeapAdd (waitFormKey formKey) (waitLess less)
              q.waitQueue.heap (newWaitFor now obj) }) := by
      unfold bqUpdate
      rw [if_neg (by simp [hstopping])]
      simp only [hg]
    have hq : dqUpdate formKey less now q obj
        = (.ok (), { q with waitQueue := { q.waitQueue with
            heap := cHeapAdd (waitFormKey formKey) (waitLess less)
              q.waitQueue.heap (newWaitFor now obj) } }) := by
      unfold dqUpdate
      simp only [hw, hbu]
    have hheap : (dqUpdate formKey less now q obj).2.waitQueue.heap
        = cHeapAdd (waitFormKey formKey) (waitLess less) q.waitQueue.heap
            (newWaitFor now obj) := by
      rw [hq]
    refine ⟨by rw [hq], by rw [hq], hheap, ?_⟩
    rw [hheap, cHeapAdd_eq]
    have hval := (heapAdd_spec (waitFormKey formKey) (waitLess_asymm hA)
      (waitLess_negTrans hN) q.waitQueue.heap (newWaitFor now obj) hWF).2.1
    obtain ⟨it, hit, hv⟩ := Option.map_eq_some'.mp hval
    show (mapGet (heapAdd (waitFormKey formKey) (waitLess less)
        q.waitQueue.heap (newWaitFor now obj)).items
        (waitFormKey formKey (newWaitFor now obj))).map
      (fun it => it.value.readyAt) = some now
    rw [hit]
    simp [hv, newWaitFor]
  · intro w hw
    have hg : cHeapGet (waitFormKey formKey) q.waitQueue.heap (newWaitFor now obj)
        = some w := hw
    obtain ⟨it, hit, hv⟩ := Option.map_eq_some'.mp hg
    have hq : dqRefresh formKey less now q obj
        = (.ok (), { q with waitQueue := { q.waitQueue with
            heap := refreshStored q.waitQueue.heap (formKey obj) obj } }) := by
      unfold dqRefresh
      simp only [hw]
    have hit2 : mapGet q.waitQueue.heap.items (formKey obj) = some it := hit
    have hrs : refreshStored q.waitQueue.heap (formKey obj) obj
        = { items := mapSet q.waitQueue.heap.items (formKey obj)
              ⟨it.index, { readyAt := it.value.readyAt, value := obj,
                           index := it.value.index }⟩
            queue := q.waitQueue.heap.queue } := by
      unfold refreshStored
      simp only [hit2]
    refine ⟨by rw [hq], by rw [hq], ?_, ?_⟩
    · rw [hq]
      show (refreshStored q.waitQueue.heap (formKey obj) obj).queue
        = q.waitQueue.heap.queue
      rw [hrs]
    · rw [hq]
      show (mapGet (refreshStored q.waitQueue.heap (formKey obj) obj).items
          (formKey obj)).map (fun it => it.value)
        = some { readyAt := w.readyAt, value := obj, index := w.index }
      rw [hrs]
      show (mapGet (mapSet q.waitQueue.heap.items (formKey obj)
          ⟨it.index, { readyAt := it.value.readyAt, value := obj,
                       index := it.value.index }⟩) (formKey obj)).map
        (fun it => it.value) = _
      rw [mapGet_mapSet_self]
      simp [hv]
  · intro hnone
    constructor
    · unfold dqUpdate
      simp only [hnone]
    · unfold dqRefresh
      simp only [hnone]

theorem C5_update_refresh_witness :
    (dqRefresh oneKey natLess 100 qW 3).1 = .ok () ∧
    (dqRefresh oneKey natLess 100 qW 3).2.mainQueue = qW.mainQueue ∧
    (dqRefresh oneKey natLess 100 qW 3).2.waitQueue.heap.queue
      = qW.waitQueue.heap.queue ∧
    (mapGet (dqRefresh oneKey natLess 100 qW 3).2.waitQueue.heap.items
        (oneKey 3)).map (fun it => it.value)
      = some { readyAt := (5 : Int), value := (3 : Nat), index := (0 : Int) } :=
  (C5_update_refresh oneKey natLess_asymm natLess_negTrans 100 qW 3
    (WF_singleton (waitLess natLess) "k" ⟨5, 3, 0⟩) rfl).2.1
    ⟨5, 3, 0⟩ (by decide)

/-- C7: `AddAfter` is a no-op when the queue is shut down; with
`duration ≤ 0` it is exactly `Add` (straight to the ready queue); with a
positive delay it appends a `waitFor` with `readyAt = now + duration` to the
inbound channel and touches neither inner queue. -/
theorem C7_add_after (formKey : V → String) (less : V → V → Bool) (now : Int)
    (q : DelayingQueueSt V) (item : V) (duration : Int) :
    (q.stop = true → dqAddAfter formKey less now q item duration = q) ∧
    (q.stop = false → duration ≤ 0 →
      dqAddAfter formKey less now q item duration = dqAdd formKey less q item) ∧
    (q.stop = false → 0 < duration →
      dqAddAfter formKey less now q item duration
        = { q with waitingForAddCh := q.waitingForAddCh
            ++ [{ readyAt := now + duration, value := item, index := 0 }] } ∧
      (dqAddAfter formKey less now q item duration).mainQueue = q.mainQueue ∧
      (dqAddAfter formKey less now q item duration).waitQueue = q.waitQueue) := by
  refine ⟨?_, ?_, ?_⟩
  · intro h
    unfold dqAddAfter
    rw [if_pos (show dqIsShutdown q = true from h)]
  · intro h hd
    unfold dqAddAfter
    rw [if_neg (by simp [dqIsShutdown, h]), if_pos hd]
    rfl
  · intro h hd
    have he : dqAddAfter formKey less now q item duration
        = { q with waitingForAddCh := q.waitingForAddCh
            ++ [{ readyAt := now + duration, value := item, index := 0 }] } := by
      unfold dqAddAfter
      rw [if_neg (by simp [dqIsShutdown, h]), if_neg (by omega)]
    exact ⟨he, by rw [he], by rw [he]⟩

/-- C10: the delaying queue's `Len` is the ready queue's length plus the
waiting queue's length, and `Get` checks the ready queue first, then the
waiting queue (unwrapping the entry's inner value), reporting not-found
exactly when the key is absent from both. -/
theorem C10_len_get_union (formKey : V → String) (now : Int)
    (q : DelayingQueueSt V) (obj : V) :
    dqLen q = bqLen q.mainQueue + bqLen q.waitQueue ∧
    (∀ u, bqGet formKey q.mainQueue obj = some u →
      dqGet formKey now q obj = some u) ∧
    (bqGet formKey q.mainQueue obj = none →
      ∀ w, bqGet (waitFormKey formKey) q.waitQueue (newWaitFor now obj) = some w →
        dqGet formKey now q obj = some w.value) ∧
    (dqGet formKey now q obj = none ↔
      bqGet formKey q.mainQueue obj = none ∧
      bqGet (waitFormKey formKey) q.waitQueue (newWaitFor now obj) = none) := by
  refine ⟨rfl, ?_, ?_, ?_⟩
  · intro u hu
    unfold dqGet
    simp only [hu]
  · intro hm w hw
    unfold dqGet
    simp only [hm, hw]
  · constructor
    · intro h
      unfold dqGet at h
      cases hm : bqGet formKey q.mainQueue obj with
      | some u =>
        simp only [hm] at h
        exact Option.noConfusion h
      | none =>
        cases hw : bqGet (waitFormKey formKey) q.waitQueue (newWaitFor now obj) with
        | some w =>
          simp only [hm, hw] at h
          exact Option.noConfusion h
        | none => exact ⟨rfl, rfl⟩
    · rintro ⟨hm, hw⟩
      unfold dqGet
      simp only [hm, hw]

end Algo
